import Mathlib

/-!
Verification of the Task Graph & Layout Engine of the ToDo flowchart
application (generation `main5.0.0.py`, the most feature-complete one,
with the other generations consulted where the specification cites them).

The Python task store `self.tasks` (a dict from task id to a task record)
is embedded as an association list preserving insertion order, so that
Python's order-preserving dict iteration and stable sorting are modelled
faithfully.  Python truthiness tests on optional string fields and the
`or 999` normalisation of priorities are modelled explicitly.  Recursive
procedures that Python runs on the call stack are given an explicit fuel
parameter; `none` models a run that exceeds every finite recursion depth.
-/

namespace Todo

/-- A task record, mirroring the dict fields created by `show_task_dialog`
and mutated by the operations of `main5.0.0.py`.  `priority = none` models
an absent `priority` key, similarly for the two relation fields. -/
structure Task where
  title : String
  description : String
  completed : Bool
  stashed : Bool
  parent_id : Option String
  workflow_sibling_of : Option String
  created : String
  priority : Option Int
  deriving Repr, DecidableEq

/-- The task store `self.tasks`: an insertion-ordered mapping from id to task. -/
abbrev Store := List (String × Task)

/-- Dict lookup `self.tasks.get(k)`. -/
def lookup (s : Store) (k : String) : Option Task :=
  match s with
  | [] => none
  | e :: rest => if e.1 == k then some e.2 else lookup rest k

/-- Dict membership `k in self.tasks`. -/
def contains (s : Store) (k : String) : Bool :=
  (lookup s k).isSome

/-- Dict deletion `del self.tasks[k]`. -/
def erase (s : Store) (k : String) : Store :=
  match s with
  | [] => []
  | e :: rest => if e.1 == k then erase rest k else e :: erase rest k

/-- Pointwise field update of the task stored under key `k`. -/
def updateTask (s : Store) (k : String) (f : Task → Task) : Store :=
  match s with
  | [] => []
  | e :: rest => (if e.1 == k then (e.1, f e.2) else e) :: updateTask rest k f

/-- `self.tasks[k]['priority'] = v`. -/
def setPrio (s : Store) (k : String) (v : Option Int) : Store :=
  updateTask s k (fun t => { t with priority := v })

/-- Python truthiness of an optional string (`None` and `""` are falsy). -/
def truthyStr : Option String → Bool
  | none => false
  | some s => !(s == "")

/-- Python `p or 999` on an integer priority (`0` is falsy). -/
def orNorm (p : Int) : Int :=
  if p == 0 then 999 else p

/-- The sort key `self.tasks[tid].get('priority', 999) or 999` used by
`get_subtasks`. -/
def prioKeyOf (s : Store) (tid : String) : Int :=
  match lookup s tid with
  | some t => orNorm (t.priority.getD 999)
  | none => 999

/-- The sort key `self.tasks[tid].get('created', '')` used by
`get_workflow_siblings`. -/
def createdOf (s : Store) (tid : String) : String :=
  match lookup s tid with
  | some t => t.created
  | none => ""

/-- Insertion step of a stable insertion sort: `a` is placed before the
first element `b` with `le a b`; on ties the earlier element stays first. -/
def insLe (le : α → α → Bool) (a : α) : List α → List α
  | [] => [a]
  | b :: l => if le a b then a :: b :: l else b :: insLe le a l

/-- Stable sort modelling Python's `list.sort(key=...)` (Timsort is stable;
any stable sort computes the same list). -/
def sortByLe (le : α → α → Bool) (l : List α) : List α :=
  l.foldr (insLe le) []

/-- `get_subtasks` of `main5.0.0.py` (lines 1290-1298): direct subtasks
only, excluding workflow siblings, stably sorted by falsy-normalised
priority. -/
def get_subtasks (s : Store) (parent_id : String) : List String :=
  let subtasks := (s.filter
    (fun e => e.2.parent_id == some parent_id && !(truthyStr e.2.workflow_sibling_of))).map
    (fun e => e.1)
  sortByLe (fun a b => decide (prioKeyOf s a ≤ prioKeyOf s b)) subtasks

/-- `get_workflow_siblings` of `main5.0.0.py` (lines 1300-1312): direct
workflow siblings only, stably sorted by creation timestamp. -/
def get_workflow_siblings (s : Store) (task_id : String) : List String :=
  let siblings := (s.filter (fun e => e.2.workflow_sibling_of == some task_id)).map
    (fun e => e.1)
  sortByLe (fun a b => decide (createdOf s a ≤ createdOf s b)) siblings

/-- The ids a traversal steps to from a node: its direct subtasks followed
by its direct workflow siblings. -/
def childrenOf (s : Store) (n : String) : List String :=
  get_subtasks s n ++ get_workflow_siblings s n

/-- One traversal edge of the task graph. -/
def childEdge (s : Store) (n c : String) : Prop :=
  c ∈ childrenOf s n

/-- Transitive (reflexive) reachability along subtask and workflow edges,
the relation the cascade operations are specified against. -/
def ReachP (s : Store) (root k : String) : Prop :=
  Relation.ReflTransGen (childEdge s) root k

/-- Store well-formedness: ids are unique. -/
abbrev WFStore (s : Store) : Prop :=
  (s.map Prod.fst).Nodup

/-- Acyclicity certificate: `rank` is a topological rank, checked entrywise
over the two edges each stored task can induce (a subtask edge from its
`parent_id` unless its `workflow_sibling_of` is truthy, and a workflow edge
from its `workflow_sibling_of`). -/
def rankOk (s : Store) (rank : String → Nat) : Bool :=
  s.all (fun e =>
    (match e.2.parent_id with
     | some p => truthyStr e.2.workflow_sibling_of || decide (rank e.1 < rank p)
     | none => true) &&
    (match e.2.workflow_sibling_of with
     | some w => decide (rank e.1 < rank w)
     | none => true))

/-- Threads a store through a list of fallible recursive calls, modelling a
Python `for` loop over a snapshot id list that mutates `self.tasks`. -/
def stepFold (f : Store → String → Option Store) : List String → Store → Option Store
  | [], s => some s
  | tid :: rest, s =>
    match f s tid with
    | none => none
    | some s1 => stepFold f rest s1

/-- `toggle_done_status` of `main5.0.0.py` (lines 1314-1322): sets
`completed` from the status string and clears `stashed` when marking done.
Touches only the one task. -/
def toggle_done_status (s : Store) (task_id status : String) : Store :=
  if contains s task_id then
    updateTask s task_id (fun t =>
      let c := status == "Done ✓"
      { t with completed := c, stashed := if c then false else t.stashed })
  else s

/-- The per-node effect of the stash cascade: set `stashed` and force
`completed = False` when stashing. -/
def stashUpd (st : Bool) (t : Task) : Task :=
  { t with stashed := st, completed := if st then false else t.completed }

/-- `_set_stash_recursive` of `main5.0.0.py` (lines 1336-1353), with explicit
fuel for the Python call stack: sets `stashed`, clears `completed` when
stashing, then recurses into the current store's subtasks and then its
workflow siblings.  There is no visited set in the source. -/
def set_stash_recursive (st : Bool) : Nat → Store → String → Option Store
  | 0, _, _ => none
  | fuel + 1, s, tid =>
    if contains s tid then
      let s1 := updateTask s tid (stashUpd st)
      match stepFold (fun s2 c => set_stash_recursive st fuel s2 c) (get_subtasks s1 tid) s1 with
      | none => none
      | some s2 => stepFold (fun s3 c => set_stash_recursive st fuel s3 c)
          (get_workflow_siblings s2 tid) s2
    else some s

/-- `toggle_stash_status` of `main5.0.0.py` (lines 1324-1334): flips the
current stash flag and cascades it. -/
def toggle_stash_status (s : Store) (task_id : String) (fuel : Nat) : Option Store :=
  if contains s task_id then
    let current := match lookup s task_id with
      | some t => t.stashed
      | none => false
    set_stash_recursive (!current) fuel s task_id
  else some s

/-- `_delete_recursive` of `main5.0.0.py` (lines 1535-1547), with explicit
fuel: recursively deletes the current store's subtasks, then the (by then
current) store's workflow siblings, then erases the task itself.  There is
no visited set in the source. -/
def delete_recursive : Nat → Store → String → Option Store
  | 0, _, _ => none
  | fuel + 1, s, tid =>
    match stepFold (fun s1 c => delete_recursive fuel s1 c) (get_subtasks s tid) s with
    | none => none
    | some s1 =>
      match stepFold (fun s2 c => delete_recursive fuel s2 c) (get_workflow_siblings s1 tid) s1 with
      | none => none
      | some s2 => some (erase s2 tid)

/-- Maximum of a nonempty list, accumulated from a seed. -/
def maxTail (x : Int) : List Int → Int
  | [] => x
  | y :: ys => maxTail (max x y) ys

/-- Minimum of a nonempty list, accumulated from a seed. -/
def minTail (x : Int) : List Int → Int
  | [] => x
  | y :: ys => minTail (min x y) ys

/-- The defaulted priority read `t.get('priority', 999)` used by the
priority-move operations (no `or 999` there). -/
def pgetT (t : Task) : Int :=
  t.priority.getD 999

/-- `move_priority_up` of `main5.0.0.py` (lines 669-692): finds the maximal
priority strictly below the current one among the other tasks (with absent
priorities defaulted to 999), then swaps priorities with the first task
whose literal priority equals that target. -/
def move_priority_up (s : Store) (task_id : String) : Store :=
  if contains s task_id then
    let current := match lookup s task_id with
      | some t => pgetT t
      | none => 999
    let lowers := (s.filter
      (fun e => decide (pgetT e.2 < current) && !(e.1 == task_id))).map (fun e => pgetT e.2)
    match lowers with
    | [] => s
    | m :: rest =>
      let target := maxTail m rest
      match s.find? (fun e => e.2.priority == some target) with
      | none => s
      | some e => setPrio (setPrio s e.1 (some current)) task_id (some target)
  else s

/-- `move_priority_down` of `main5.0.0.py` (lines 694-717): mirror image of
`move_priority_up`, towards the minimal priority strictly above. -/
def move_priority_down (s : Store) (task_id : String) : Store :=
  if contains s task_id then
    let current := match lookup s task_id with
      | some t => pgetT t
      | none => 999
    let highers := (s.filter
      (fun e => decide (current < pgetT e.2) && !(e.1 == task_id))).map (fun e => pgetT e.2)
    match highers with
    | [] => s
    | m :: rest =>
      let target := minTail m rest
      match s.find? (fun e => e.2.priority == some target) with
      | none => s
      | some e => setPrio (setPrio s e.1 (some current)) task_id (some target)
  else s

/-- The priority swap of `_on_canvas_release` of `main5.0.0.py` (lines
596-603): both priorities are read through `get('priority', 999) or 999`
and written back crosswise.  The surrounding hit test guarantees both ids
resolve; a failed lookup or a drop on the dragged card itself leaves the
store unchanged. -/
def drag_swap (s : Store) (dragId dropId : String) : Store :=
  if dragId == dropId then s
  else
    match lookup s dragId, lookup s dropId with
    | some td, some tp =>
      let dragP := orNorm (td.priority.getD 999)
      let dropP := orNorm (tp.priority.getD 999)
      setPrio (setPrio s dragId (some dropP)) dropId (some dragP)
    | _, _ => s

/-- Card geometry: width, height, horizontal and vertical spacing, and the
level indent, each the base constant of `main5.0.0.py` (lines 102-106)
times the zoom factor, truncated to an integer. -/
structure Dims where
  w : Int
  h : Int
  sh : Int
  sv : Int
  ind : Int
  deriving Repr, DecidableEq

/-- The dimensions at the initial zoom factor 1.0 (exact, no rounding). -/
def dims1 : Dims := ⟨240, 120, 60, 50, 30⟩

/-- A placed rectangle `(x, y, w, h)` as stored in `self.task_positions`. -/
abbrev Rect := Int × Int × Int × Int

/-- The position map `self.task_positions`. -/
abbrev PosMap := List (String × Rect)

/-- Rectangle lookup in the position map. -/
def posLookup (p : PosMap) (k : String) : Option Rect :=
  match p with
  | [] => none
  | e :: rest => if e.1 == k then some e.2 else posLookup rest k

/-- Dict assignment `self.task_positions[tid] = rect`: replaces the value
under an existing key in place, otherwise appends the new entry. -/
def posInsert (p : PosMap) (k : String) (r : Rect) : PosMap :=
  match p with
  | [] => [(k, r)]
  | e :: rest => if e.1 == k then (e.1, r) :: rest else e :: posInsert rest k r

/-- Two axis-aligned rectangles overlap when their open interiors meet. -/
def rectsOverlap (a b : Rect) : Bool :=
  decide (a.1 < b.1 + b.2.2.1) && decide (b.1 < a.1 + a.2.2.1) &&
  decide (a.2.1 < b.2.1 + b.2.2.2) && decide (b.2.1 < a.2.1 + a.2.2.2)

/-- The breadth-first layout loop of `_render_task_tree` of `main5.0.0.py`
(lines 996-1071), positions only: each dequeued present task is placed at
its queued coordinates; its subtasks are enqueued rightwards at the same y,
each a static `card_width + card_spacing_h` further; its workflow siblings
are enqueued below at `x + level_indent`, each a static
`card_height + card_spacing_v` further.  The accumulator tracks
`max_y_used`.  Fuel counts dequeue steps. -/
def renderLoop (s : Store) (d : Dims) :
    Nat → List (String × Int × Int) → PosMap → Int → Option (PosMap × Int)
  | _, [], p, maxY => some (p, maxY)
  | 0, _ :: _, _, _ => none
  | fuel + 1, (tid, x, y) :: rest, p, maxY =>
    match lookup s tid with
    | none => renderLoop s d fuel rest p maxY
    | some _ =>
      let p1 := posInsert p tid (x, y, d.w, d.h)
      let maxY1 := max maxY (y + d.h)
      let subs := (get_subtasks s tid).enum.map
        (fun ic => (ic.2, x + d.w + d.sh + (ic.1 : Int) * (d.w + d.sh), y))
      let wfs := (get_workflow_siblings s tid).enum.map
        (fun ic => (ic.2, x + d.ind, y + d.h + d.sv + (ic.1 : Int) * (d.h + d.sv)))
      renderLoop s d fuel (rest ++ subs ++ wfs) p1 maxY1

/-- `_render_task_tree` of `main5.0.0.py` (lines 990-1072): runs the layout
loop from the root and returns the updated position map together with the
reported consumed height `max_y_used - y + card_height`. -/
def render_task_tree (s : Store) (d : Dims) (fuel : Nat) (tid : String) (x y : Int)
    (p : PosMap) : Option (PosMap × Int) :=
  match lookup s tid with
  | none => some (p, 0)
  | some _ =>
    match renderLoop s d fuel [(tid, x, y)] p y with
    | none => none
    | some (p1, maxY) => some (p1, maxY - y + d.h)

/-- The root-task selection of `refresh_pipeline` of `main5.0.0.py` (lines
792-813): view filtering, then sorting by the selected mode. -/
def root_tasks (s : Store) (view sort_mode : String) : List String :=
  let roots :=
    if view == "todo" then
      (s.filter (fun e => e.2.parent_id == none && !e.2.completed && !e.2.stashed
        && !(truthyStr e.2.workflow_sibling_of))).map (fun e => e.1)
    else if view == "done" then
      (s.filter (fun e => e.2.parent_id == none && e.2.completed
        && !(truthyStr e.2.workflow_sibling_of))).map (fun e => e.1)
    else if view == "stash" then
      (s.filter (fun e => e.2.parent_id == none && e.2.stashed
        && !(truthyStr e.2.workflow_sibling_of))).map (fun e => e.1)
    else []
  if sort_mode == "priority" then
    sortByLe (fun a b =>
      decide (prioKeyOf s a < prioKeyOf s b) ||
      (decide (prioKeyOf s a = prioKeyOf s b) && decide (createdOf s a ≤ createdOf s b))) roots
  else
    sortByLe (fun a b => decide (createdOf s a ≤ createdOf s b)) roots

/-- Card-mode root stacking of `refresh_pipeline` (lines 829-844): roots are
rendered top to bottom starting at y = 40, each advanced by the reported
height plus 40. -/
def renderRoots (s : Store) (d : Dims) (fuel : Nat) :
    List String → Int → PosMap → Option PosMap
  | [], _, p => some p
  | tid :: rest, y, p =>
    match render_task_tree s d fuel tid 40 y p with
    | none => none
    | some (p1, h) => renderRoots s d fuel rest (y + h + 40) p1

/-- The application state the refresh pipeline reads and writes. -/
structure AppState where
  tasks : Store
  current_view : String
  sort_mode : String
  dims : Dims
  task_positions : PosMap
  deriving DecidableEq

/-- `refresh_pipeline` of `main5.0.0.py` (lines 786-858) in card mode:
clears `task_positions`, re-derives the root list from the store, and
renders every root tree from scratch. -/
def refresh_pipeline (st : AppState) (fuel : Nat) : Option AppState :=
  match renderRoots st.tasks st.dims fuel
      (root_tasks st.tasks st.current_view st.sort_mode) 40 [] with
  | none => none
  | some p => some { st with task_positions := p }

/-! ### Association-list lemmas -/

theorem lookup_some_mem {s : Store} {k : String} {t : Task}
    (h : lookup s k = some t) : (k, t) ∈ s := by
  induction s with
  | nil => simp [lookup] at h
  | cons e rest ih =>
    by_cases hk : e.1 = k
    · simp [lookup, hk] at h
      exact List.mem_cons.mpr (Or.inl (by cases e; simp_all))
    · simp [lookup, hk] at h
      exact List.mem_cons.mpr (Or.inr (ih h))

theorem lookup_eq_none_iff {s : Store} {k : String} :
    lookup s k = none ↔ k ∉ s.map Prod.fst := by
  induction s with
  | nil => simp [lookup]
  | cons e rest ih =>
    by_cases hk : e.1 = k
    · simp [lookup, hk]
    · simp [lookup, hk, ih, Ne.symm hk]

theorem lookup_isSome_iff {s : Store} {k : String} :
    (lookup s k).isSome = true ↔ k ∈ s.map Prod.fst := by
  rw [Option.isSome_iff_ne_none]
  constructor
  · intro h
    by_contra hk
    exact h (lookup_eq_none_iff.mpr hk)
  · intro h he
    exact (lookup_eq_none_iff.mp he) h

theorem mem_lookup_eq {s : Store} {k : String} {t : Task}
    (hwf : WFStore s) (h : (k, t) ∈ s) : lookup s k = some t := by
  induction s with
  | nil => simp at h
  | cons e rest ih =>
    have hwf2 : (e.1 :: rest.map Prod.fst).Nodup := hwf
    have hwf' : e.1 ∉ rest.map Prod.fst ∧ (rest.map Prod.fst).Nodup :=
      List.nodup_cons.mp hwf2
    rcases List.mem_cons.mp h with he | hr
    · simp [lookup, ← he]
    · have hk : e.1 ≠ k := by
        intro hek
        exact hwf'.1 (hek ▸ List.mem_map.mpr ⟨(k, t), hr, rfl⟩)
      simp only [lookup, beq_iff_eq, hk, if_false]
      exact ih hwf'.2 hr

theorem contains_iff_mem {s : Store} {k : String} :
    contains s k = true ↔ k ∈ s.map Prod.fst := by
  unfold contains
  exact lookup_isSome_iff

theorem lookup_updateTask_self (s : Store) (k : String) (f : Task → Task) :
    lookup (updateTask s k f) k = (lookup s k).map f := by
  induction s with
  | nil => simp [lookup, updateTask]
  | cons e rest ih =>
    by_cases hek : e.1 = k
    · simp [updateTask, lookup, hek]
    · simp [updateTask, lookup, hek, ih]

theorem lookup_updateTask_ne (s : Store) {k k' : String} (f : Task → Task)
    (h : k' ≠ k) : lookup (updateTask s k f) k' = lookup s k' := by
  induction s with
  | nil => simp [lookup, updateTask]
  | cons e rest ih =>
    by_cases hek : e.1 = k
    · have h1 : e.1 ≠ k' := fun hx => h (hx ▸ hek)
      simp [updateTask, lookup, hek, h1, Ne.symm h, ih]
    · by_cases hek' : e.1 = k'
      · simp [updateTask, lookup, hek, hek', h]
      · simp [updateTask, lookup, hek, hek', ih]

theorem map_fst_updateTask (s : Store) (k : String) (f : Task → Task) :
    (updateTask s k f).map Prod.fst = s.map Prod.fst := by
  induction s with
  | nil => rfl
  | cons e rest ih =>
    by_cases hek : e.1 = k <;> simp [updateTask, hek, ih]

theorem lookup_erase_self (s : Store) (k : String) : lookup (erase s k) k = none := by
  induction s with
  | nil => rfl
  | cons e rest ih =>
    by_cases hek : e.1 = k <;> simp [erase, lookup, hek, ih]

theorem lookup_erase_ne (s : Store) {k k' : String} (h : k' ≠ k) :
    lookup (erase s k) k' = lookup s k' := by
  induction s with
  | nil => rfl
  | cons e rest ih =>
    by_cases hek : e.1 = k
    · have h1 : e.1 ≠ k' := fun hx => h (hx ▸ hek)
      simp [erase, lookup, hek, h1, Ne.symm h, ih]
    · by_cases hek' : e.1 = k'
      · simp [erase, lookup, hek, hek', h]
      · simp [erase, lookup, hek, hek', ih]

theorem erase_sublist (s : Store) (k : String) : List.Sublist (erase s k) s := by
  induction s with
  | nil => simp [erase]
  | cons e rest ih =>
    by_cases hek : e.1 = k
    · simp only [erase, hek, beq_self_eq_true, if_true]
      exact ih.cons e
    · simp only [erase, beq_iff_eq, hek, if_false]
      exact ih.cons₂ e

theorem wf_sublist {s s' : Store} (h : List.Sublist s' s) (hwf : WFStore s) : WFStore s' :=
  List.Nodup.sublist (List.Sublist.map Prod.fst h) hwf

theorem sublist_lookup_none {s s' : Store} (h : List.Sublist s' s) {k : String}
    (hn : lookup s k = none) : lookup s' k = none := by
  rw [lookup_eq_none_iff] at hn ⊢
  intro hk
  exact hn ((List.Sublist.map Prod.fst h).subset hk)

theorem sublist_lookup_some {s s' : Store} (hwf : WFStore s) (h : List.Sublist s' s)
    {k : String} {t : Task} (hs : lookup s' k = some t) : lookup s k = some t :=
  mem_lookup_eq hwf (h.subset (lookup_some_mem hs))

/-! ### Stable-sort lemmas -/

theorem insLe_perm (le : α → α → Bool) (a : α) (l : List α) :
    List.Perm (insLe le a l) (a :: l) := by
  induction l with
  | nil => simp [insLe]
  | cons b rest ih =>
    by_cases hab : le a b = true
    · simp [insLe, hab]
    · simp only [insLe, hab, if_false]
      exact List.Perm.trans (List.Perm.cons b ih) (List.Perm.swap a b rest)

theorem sortByLe_perm (le : α → α → Bool) (l : List α) :
    List.Perm (sortByLe le l) l := by
  induction l with
  | nil => simp [sortByLe]
  | cons a rest ih =>
    exact List.Perm.trans (insLe_perm le a (sortByLe le rest)) (List.Perm.cons a ih)

theorem mem_sortByLe {le : α → α → Bool} {l : List α} {x : α} :
    x ∈ sortByLe le l ↔ x ∈ l :=
  (sortByLe_perm le l).mem_iff

theorem insLe_pairwise_lex [LinearOrder β] (key : α → β) (idx : α → Nat) (x : α)
    (l : List α)
    (hl : l.Pairwise (fun a b => key a < key b ∨ (key a = key b ∧ idx a < idx b)))
    (hx : ∀ y ∈ l, idx x < idx y) :
    (insLe (fun a b => decide (key a ≤ key b)) x l).Pairwise
      (fun a b => key a < key b ∨ (key a = key b ∧ idx a < idx b)) := by
  induction l with
  | nil => simp [insLe]
  | cons b rest ih =>
    by_cases hab : key x ≤ key b
    · simp only [insLe, decide_eq_true_eq, hab, if_true]
      refine List.Pairwise.cons ?_ hl
      intro y hy
      rcases List.mem_cons.mp hy with hyb | hyr
      · subst hyb
        rcases lt_or_eq_of_le hab with hlt | heq
        · exact Or.inl hlt
        · exact Or.inr ⟨heq, hx y (List.mem_cons_self _ _)⟩
      · have hby := (List.pairwise_cons.mp hl).1 y hyr
        have hbley : key b ≤ key y := by
          rcases hby with hlt | ⟨heq, _⟩
          · exact le_of_lt hlt
          · exact le_of_eq heq
        rcases lt_or_eq_of_le (le_trans hab hbley) with hlt | heq
        · exact Or.inl hlt
        · exact Or.inr ⟨heq, hx y (List.mem_cons_of_mem _ hyr)⟩
    · simp only [insLe, decide_eq_true_eq, hab, if_false]
      have hbx : key b < key x := lt_of_not_le hab
      refine List.Pairwise.cons ?_ (ih (List.pairwise_cons.mp hl).2
        (fun y hy => hx y (List.mem_cons_of_mem _ hy)))
      intro y hy
      rcases List.mem_cons.mp
          ((insLe_perm (fun a b => decide (key a ≤ key b)) x rest).mem_iff.mp hy) with
        hyx | hyr
      · subst hyx
        exact Or.inl hbx
      · exact (List.pairwise_cons.mp hl).1 y hyr

theorem sortByLe_pairwise_lex [LinearOrder β] (key : α → β) (idx : α → Nat)
    (l : List α) (hidx : l.Pairwise (fun a b => idx a < idx b)) :
    (sortByLe (fun a b => decide (key a ≤ key b)) l).Pairwise
      (fun a b => key a < key b ∨ (key a = key b ∧ idx a < idx b)) := by
  induction l with
  | nil => simp [sortByLe]
  | cons a rest ih =>
    have h1 := (List.pairwise_cons.mp hidx).1
    have h2 := (List.pairwise_cons.mp hidx).2
    refine insLe_pairwise_lex key idx a (sortByLe (fun a b => decide (key a ≤ key b)) rest)
      (ih h2) ?_
    intro y hy
    exact h1 y (mem_sortByLe.mp hy)

/-! ### Accessor characterisations -/

theorem mem_filter_map_fst {s : Store} {p : String × Task → Bool} {k : String} :
    k ∈ (s.filter p).map (fun e => e.1) ↔ ∃ t, (k, t) ∈ s ∧ p (k, t) = true := by
  constructor
  · intro h
    rcases List.mem_map.mp h with ⟨e, he, hk⟩
    rcases List.mem_filter.mp he with ⟨hes, hp⟩
    refine ⟨e.2, ?_, ?_⟩
    · cases e
      cases hk
      exact hes
    · cases e
      cases hk
      exact hp
  · rintro ⟨t, hts, hp⟩
    exact List.mem_map.mpr ⟨(k, t), List.mem_filter.mpr ⟨hts, hp⟩, rfl⟩

theorem mem_get_subtasks {s : Store} (hwf : WFStore s) {n c : String} :
    c ∈ get_subtasks s n ↔
      ∃ t, lookup s c = some t ∧ t.parent_id = some n ∧
        truthyStr t.workflow_sibling_of = false := by
  unfold get_subtasks
  rw [mem_sortByLe, mem_filter_map_fst]
  constructor
  · rintro ⟨t, hts, hp⟩
    simp only [Bool.and_eq_true, beq_iff_eq, Bool.not_eq_true'] at hp
    exact ⟨t, mem_lookup_eq hwf hts, hp.1, hp.2⟩
  · rintro ⟨t, hl, h1, h2⟩
    refine ⟨t, lookup_some_mem hl, ?_⟩
    simp only [Bool.and_eq_true, beq_iff_eq, Bool.not_eq_true']
    exact ⟨h1, h2⟩

theorem mem_get_workflow_siblings {s : Store} (hwf : WFStore s) {n c : String} :
    c ∈ get_workflow_siblings s n ↔
      ∃ t, lookup s c = some t ∧ t.workflow_sibling_of = some n := by
  unfold get_workflow_siblings
  rw [mem_sortByLe, mem_filter_map_fst]
  constructor
  · rintro ⟨t, hts, hp⟩
    simp only [beq_iff_eq] at hp
    exact ⟨t, mem_lookup_eq hwf hts, hp⟩
  · rintro ⟨t, hl, h1⟩
    refine ⟨t, lookup_some_mem hl, ?_⟩
    simp only [beq_iff_eq]
    exact h1

theorem childEdge_iff {s : Store} (hwf : WFStore s) {n c : String} :
    childEdge s n c ↔
      ∃ t, lookup s c = some t ∧
        ((t.parent_id = some n ∧ truthyStr t.workflow_sibling_of = false) ∨
          t.workflow_sibling_of = some n) := by
  unfold childEdge childrenOf
  rw [List.mem_append, mem_get_subtasks hwf, mem_get_workflow_siblings hwf]
  constructor
  · rintro (⟨t, hl, h1, h2⟩ | ⟨t, hl, h1⟩)
    · exact ⟨t, hl, Or.inl ⟨h1, h2⟩⟩
    · exact ⟨t, hl, Or.inr h1⟩
  · rintro ⟨t, hl, ⟨h1, h2⟩ | h1⟩
    · exact Or.inl ⟨t, hl, h1, h2⟩
    · exact Or.inr ⟨t, hl, h1⟩

theorem childEdge_contains {s : Store} (hwf : WFStore s) {n c : String}
    (h : childEdge s n c) : contains s c = true := by
  rcases (childEdge_iff hwf).mp h with ⟨t, hl, _⟩
  unfold contains
  rw [hl]
  rfl

theorem childrenOf_subset_keys {s : Store} (hwf : WFStore s) {n c : String}
    (h : c ∈ childrenOf s n) : c ∈ s.map Prod.fst := by
  have := childEdge_contains hwf (h : childEdge s n c)
  exact contains_iff_mem.mp this

theorem rankOk_spec {s : Store} {rank : String → Nat} (hr : rankOk s rank = true)
    (hwf : WFStore s) {n c : String} (h : childEdge s n c) : rank c < rank n := by
  rcases (childEdge_iff hwf).mp h with ⟨t, hl, hcond⟩
  have hmem : (c, t) ∈ s := lookup_some_mem hl
  have hall := (List.all_eq_true.mp hr) (c, t) hmem
  simp only [Bool.and_eq_true] at hall
  rcases hcond with ⟨h1, h2⟩ | h1
  · have := hall.1
    rw [h1] at this
    simp only [h2, Bool.false_or, decide_eq_true_eq] at this
    exact this
  · have := hall.2
    rw [h1] at this
    simp only [decide_eq_true_eq] at this
    exact this

/-! ### Computable reachability closure -/

/-- Appends those of `cs` not yet present, left to right, preserving order
and never duplicating. -/
def addNew : List String → List String → List String
  | acc, [] => acc
  | acc, c :: cs => if c ∈ acc then addNew acc cs else addNew (acc ++ [c]) cs

/-- One closure round: add every child of every collected node. -/
def stepClose (s : Store) (acc : List String) : List String :=
  addNew acc (acc.flatMap (childrenOf s))

/-- Iterated closure rounds. -/
def iterClose (s : Store) : Nat → List String → List String
  | 0, acc => acc
  | n + 1, acc => iterClose s n (stepClose s acc)

/-- The set of ids reachable from `root`, computed by saturating the child
relation; `s.length + 1` rounds always suffice because each non-final round
strictly grows a duplicate-free list bounded by the store's keys. -/
def reachList (s : Store) (root : String) : List String :=
  iterClose s (s.length + 1) [root]

theorem mem_addNew {x : String} : ∀ (cs acc : List String),
    x ∈ addNew acc cs ↔ x ∈ acc ∨ x ∈ cs := by
  intro cs
  induction cs with
  | nil => simp [addNew]
  | cons c cs ih =>
    intro acc
    by_cases hc : c ∈ acc
    · simp only [addNew, hc, if_true, ih]
      constructor
      · rintro (h | h)
        · exact Or.inl h
        · exact Or.inr (List.mem_cons_of_mem _ h)
      · rintro (h | h)
        · exact Or.inl h
        · rcases List.mem_cons.mp h with rfl | h
          · exact Or.inl hc
          · exact Or.inr h
    · simp only [addNew, hc, if_false, ih, List.mem_append, List.mem_singleton,
        List.mem_cons]
      tauto

theorem nodup_addNew : ∀ (cs acc : List String), acc.Nodup → (addNew acc cs).Nodup := by
  intro cs
  induction cs with
  | nil => intro acc h; exact h
  | cons c cs ih =>
    intro acc h
    by_cases hc : c ∈ acc
    · simp only [addNew, hc, if_true]
      exact ih acc h
    · simp only [addNew, hc, if_false]
      refine ih _ ?_
      rw [List.nodup_append]
      refine ⟨h, List.nodup_singleton c, ?_⟩
      intro a ha hac
      rw [List.mem_singleton] at hac
      subst hac
      exact hc ha

theorem length_le_addNew : ∀ (cs acc : List String),
    acc.length ≤ (addNew acc cs).length := by
  intro cs
  induction cs with
  | nil => intro acc; exact le_refl _
  | cons c cs ih =>
    intro acc
    by_cases hc : c ∈ acc
    · simp only [addNew, hc, if_true]
      exact ih acc
    · simp only [addNew, hc, if_false]
      calc acc.length ≤ (acc ++ [c]).length := by simp
        _ ≤ _ := ih _

theorem length_lt_addNew : ∀ (cs acc : List String), (∃ c ∈ cs, c ∉ acc) →
    acc.length < (addNew acc cs).length := by
  intro cs
  induction cs with
  | nil => rintro acc ⟨c, hc, _⟩; simp at hc
  | cons c cs ih =>
    rintro acc ⟨c', hc', hnc'⟩
    by_cases hc : c ∈ acc
    · simp only [addNew, hc, if_true]
      rcases List.mem_cons.mp hc' with rfl | h
      · exact absurd hc hnc'
      · exact ih acc ⟨c', h, hnc'⟩
    · simp only [addNew, hc, if_false]
      calc acc.length < (acc ++ [c]).length := by simp
        _ ≤ _ := length_le_addNew _ _

theorem addNew_eq_iff {cs acc : List String} : addNew acc cs = acc ↔ cs ⊆ acc := by
  constructor
  · intro h
    intro c hc
    by_contra hnc
    have := length_lt_addNew cs acc ⟨c, hc, hnc⟩
    rw [h] at this
    exact absurd this (lt_irrefl _)
  · intro h
    induction cs generalizing acc with
    | nil => rfl
    | cons c cs ih =>
      have hc : c ∈ acc := h (List.mem_cons_self _ _)
      simp only [addNew, hc, if_true]
      exact ih (fun x hx => h (List.mem_cons_of_mem _ hx))

theorem subset_stepClose (s : Store) (acc : List String) : acc ⊆ stepClose s acc :=
  fun _ hx => (mem_addNew _ _).mpr (Or.inl hx)

theorem stepClose_eq_iff {s : Store} {acc : List String} :
    stepClose s acc = acc ↔ ∀ n ∈ acc, ∀ c ∈ childrenOf s n, c ∈ acc := by
  unfold stepClose
  rw [addNew_eq_iff]
  constructor
  · intro h n hn c hc
    exact h (List.mem_flatMap.mpr ⟨n, hn, hc⟩)
  · intro h c hc
    rcases List.mem_flatMap.mp hc with ⟨n, hn, hcn⟩
    exact h n hn c hcn

theorem subset_iterClose (s : Store) : ∀ (n : Nat) (acc : List String),
    acc ⊆ iterClose s n acc := by
  intro n
  induction n with
  | zero => intro acc; exact fun _ h => h
  | succ n ih =>
    intro acc
    exact fun x hx => ih (stepClose s acc) (subset_stepClose s acc hx)

theorem iterClose_fixed (s : Store) : ∀ (n : Nat) (acc : List String),
    stepClose s acc = acc → iterClose s n acc = acc := by
  intro n
  induction n with
  | zero => intro acc _; rfl
  | succ n ih =>
    intro acc h
    show iterClose s n (stepClose s acc) = acc
    rw [h]
    exact ih acc h

theorem nodup_iterClose (s : Store) : ∀ (n : Nat) (acc : List String),
    acc.Nodup → (iterClose s n acc).Nodup := by
  intro n
  induction n with
  | zero => intro acc h; exact h
  | succ n ih =>
    intro acc h
    exact ih (stepClose s acc) (nodup_addNew _ _ h)

theorem mem_childrenOf_keys {s : Store} {n c : String}
    (h : c ∈ childrenOf s n) : c ∈ s.map Prod.fst := by
  unfold childrenOf at h
  rcases List.mem_append.mp h with h | h
  · unfold get_subtasks at h
    rcases mem_filter_map_fst.mp (mem_sortByLe.mp h) with ⟨t, hts, _⟩
    exact List.mem_map.mpr ⟨(c, t), hts, rfl⟩
  · unfold get_workflow_siblings at h
    rcases mem_filter_map_fst.mp (mem_sortByLe.mp h) with ⟨t, hts, _⟩
    exact List.mem_map.mpr ⟨(c, t), hts, rfl⟩

theorem stepClose_subset {s : Store} {acc R : List String}
    (hacc : acc ⊆ R) (hkeys : ∀ c ∈ s.map Prod.fst, c ∈ R) :
    stepClose s acc ⊆ R := by
  intro x hx
  rcases (mem_addNew _ _).mp hx with h | h
  · exact hacc h
  · rcases List.mem_flatMap.mp h with ⟨n, _, hcn⟩
    exact hkeys x (mem_childrenOf_keys hcn)

theorem iterClose_subset (s : Store) (R : List String)
    (hkeys : ∀ c ∈ s.map Prod.fst, c ∈ R) :
    ∀ (n : Nat) (acc : List String), acc ⊆ R → iterClose s n acc ⊆ R := by
  intro n
  induction n with
  | zero => intro acc h; exact h
  | succ n ih =>
    intro acc h
    exact ih (stepClose s acc) (stepClose_subset h hkeys)

theorem iterClose_stab (s : Store) (R : List String)
    (hkeys : ∀ c ∈ s.map Prod.fst, c ∈ R) :
    ∀ (m : Nat) (acc : List String), acc.Nodup → acc ⊆ R →
      R.length < acc.length + m →
      stepClose s (iterClose s m acc) = iterClose s m acc := by
  intro m
  induction m with
  | zero =>
    intro acc hnd hsub hlen
    have : acc.length ≤ R.length := List.Subperm.length_le (List.Nodup.subperm hnd hsub)
    omega
  | succ m ih =>
    intro acc hnd hsub hlen
    by_cases hfix : stepClose s acc = acc
    · have h1 : iterClose s (m + 1) acc = acc := iterClose_fixed s (m + 1) acc hfix
      rw [h1]
      exact hfix
    · have hgrow : acc.length < (stepClose s acc).length := by
        have hns : ¬ ∀ c ∈ acc.flatMap (childrenOf s), c ∈ acc := by
          intro hall
          exact hfix (addNew_eq_iff.mpr (fun c hc => hall c hc))
        push_neg at hns
        rcases hns with ⟨c, hc1, hc2⟩
        exact length_lt_addNew _ _ ⟨c, hc1, hc2⟩
      show stepClose s (iterClose s m (stepClose s acc)) = iterClose s m (stepClose s acc)
      exact ih (stepClose s acc) (nodup_addNew _ _ hnd)
        (stepClose_subset hsub hkeys) (by omega)

theorem reachList_closed (s : Store) (root : String) :
    stepClose s (reachList s root) = reachList s root := by
  have hkeys : ∀ c ∈ s.map Prod.fst, c ∈ root :: s.map Prod.fst :=
    fun c hc => List.mem_cons_of_mem _ hc
  refine iterClose_stab s (root :: s.map Prod.fst) hkeys (s.length + 1) [root]
    (List.nodup_singleton root) ?_ ?_
  · intro x hx
    rcases List.mem_singleton.mp hx with rfl
    exact List.mem_cons_self _ _
  · simp

theorem root_mem_reachList (s : Store) (root : String) : root ∈ reachList s root :=
  subset_iterClose s (s.length + 1) [root] (List.mem_singleton.mpr rfl)

theorem childrenOf_reachList {s : Store} {root n c : String}
    (hn : n ∈ reachList s root) (hc : c ∈ childrenOf s n) : c ∈ reachList s root :=
  stepClose_eq_iff.mp (reachList_closed s root) n hn c hc

theorem reachList_sound {s : Store} {root k : String}
    (h : k ∈ reachList s root) : ReachP s root k := by
  suffices hgen : ∀ (n : Nat) (acc : List String), (∀ x ∈ acc, ReachP s root x) →
      ∀ k ∈ iterClose s n acc, ReachP s root k by
    refine hgen (s.length + 1) [root] ?_ k h
    intro x hx
    rcases List.mem_singleton.mp hx with rfl
    exact Relation.ReflTransGen.refl
  intro n
  induction n with
  | zero => intro acc hacc k hk; exact hacc k hk
  | succ n ih =>
    intro acc hacc k hk
    refine ih (stepClose s acc) ?_ k hk
    intro x hx
    rcases (mem_addNew _ _).mp hx with h1 | h1
    · exact hacc x h1
    · rcases List.mem_flatMap.mp h1 with ⟨m, hm, hcm⟩
      exact Relation.ReflTransGen.tail (hacc m hm) hcm

theorem reachList_complete {s : Store} {root k : String}
    (h : ReachP s root k) : k ∈ reachList s root := by
  induction h with
  | refl => exact root_mem_reachList s root
  | tail _ e ih => exact childrenOf_reachList ih e

theorem mem_reachList_iff {s : Store} {root k : String} :
    k ∈ reachList s root ↔ ReachP s root k :=
  ⟨reachList_sound, reachList_complete⟩

theorem reachList_subset_keys {s : Store} {root : String}
    (hroot : contains s root = true) :
    ∀ k ∈ reachList s root, k ∈ s.map Prod.fst := by
  refine iterClose_subset s (s.map Prod.fst) (fun c hc => hc) (s.length + 1) [root] ?_
  intro x hx
  rcases List.mem_singleton.mp hx with rfl
  exact contains_iff_mem.mp hroot

theorem nodup_reachList (s : Store) (root : String) : (reachList s root).Nodup :=
  nodup_iterClose s (s.length + 1) [root] (List.nodup_singleton root)

/-! ### Reachability transfer between related stores -/

theorem childEdge_intro {s : Store} {n c : String} {t : Task}
    (hl : lookup s c = some t)
    (hcond : (t.parent_id = some n ∧ truthyStr t.workflow_sibling_of = false) ∨
      t.workflow_sibling_of = some n) : childEdge s n c := by
  unfold childEdge childrenOf
  rcases hcond with ⟨h1, h2⟩ | h1
  · refine List.mem_append.mpr (Or.inl ?_)
    unfold get_subtasks
    refine mem_sortByLe.mpr (mem_filter_map_fst.mpr ⟨t, lookup_some_mem hl, ?_⟩)
    simp only [Bool.and_eq_true, beq_iff_eq, Bool.not_eq_true']
    exact ⟨h1, h2⟩
  · refine List.mem_append.mpr (Or.inr ?_)
    unfold get_workflow_siblings
    refine mem_sortByLe.mpr (mem_filter_map_fst.mpr ⟨t, lookup_some_mem hl, ?_⟩)
    simp only [beq_iff_eq]
    exact h1

theorem childEdge_of_sublist {s s' : Store} (hwf : WFStore s)
    (hsub : List.Sublist s' s) {n c : String} (h : childEdge s' n c) :
    childEdge s n c := by
  rcases (childEdge_iff (wf_sublist hsub hwf)).mp h with ⟨t, hl, hcond⟩
  exact childEdge_intro (sublist_lookup_some hwf hsub hl) hcond

theorem ReachP_of_sublist {s s' : Store} (hwf : WFStore s)
    (hsub : List.Sublist s' s) {x k : String} (h : ReachP s' x k) : ReachP s x k :=
  Relation.ReflTransGen.mono (fun _ _ e => childEdge_of_sublist hwf hsub e) h

theorem ReachP_transfer {s s' : Store} (hwf : WFStore s) (D : String → Prop)
    (hD : ∀ m k, D m → childEdge s m k → D k)
    (hpres : ∀ k, ¬ D k → lookup s' k = lookup s k)
    {x k : String} (h : ReachP s x k) (hk : ¬ D k) : ReachP s' x k := by
  induction h with
  | refl => exact Relation.ReflTransGen.refl
  | @tail m k' h1 e ih =>
    have hm : ¬ D m := fun hDm => hk (hD m k' hDm e)
    rcases (childEdge_iff hwf).mp e with ⟨t, hl, hcond⟩
    have hl' : lookup s' k' = some t := by rw [hpres k' hk]; exact hl
    exact Relation.ReflTransGen.tail (ih hm) (childEdge_intro hl' hcond)

/-! ### Recursive delete: exactness -/

/-- Characterisation of one recursive delete call on the store it was
invoked on: reachable keys are gone, unreachable keys are untouched, and
the result is an order-preserving selection of the input entries. -/
structure DelSpec (s : Store) (tid : String) (s' : Store) : Prop where
  reach_none : ∀ k, ReachP s tid k → lookup s' k = none
  unreach_eq : ∀ k, ¬ ReachP s tid k → lookup s' k = lookup s k
  sub : List.Sublist s' s

theorem lookup_erase_of_none {s : Store} {k tid : String}
    (h : lookup s k = none) : lookup (erase s tid) k = none := by
  by_cases hk : k = tid
  · subst hk
    exact lookup_erase_self s k
  · rw [lookup_erase_ne s hk]
    exact h

theorem stepFold_delete_spec (fuel : Nat)
    (IH : ∀ (s : Store) (tid : String) (s' : Store), WFStore s →
      delete_recursive fuel s tid = some s' → DelSpec s tid s') :
    ∀ (cs : List String) (s r : Store), WFStore s →
      stepFold (fun s1 c => delete_recursive fuel s1 c) cs s = some r →
      (∀ k, (∃ c ∈ cs, ReachP s c k) → lookup r k = none) ∧
      (∀ k, (∀ c ∈ cs, ¬ ReachP s c k) → lookup r k = lookup s k) ∧
      List.Sublist r s := by
  intro cs
  induction cs with
  | nil =>
    intro s r hwf h
    simp only [stepFold, Option.some.injEq] at h
    subst h
    exact ⟨fun k hk => by rcases hk with ⟨c, hc, _⟩; simp at hc,
      fun k _ => rfl, List.Sublist.refl s⟩
  | cons c cs ih =>
    intro s r hwf h
    simp only [stepFold] at h
    rcases hdel : delete_recursive fuel s c with _ | s1
    · rw [hdel] at h
      simp at h
    · rw [hdel] at h
      have h1 : DelSpec s c s1 := IH s c s1 hwf hdel
      have hwf1 : WFStore s1 := wf_sublist h1.sub hwf
      have hrec := ih s1 r hwf1 h
      have hDclosed : ∀ m k, ReachP s c m → childEdge s m k → ReachP s c k :=
        fun m k hm e => hm.tail e
      have hpres : ∀ k, ¬ ReachP s c k → lookup s1 k = lookup s k :=
        fun k hk => h1.unreach_eq k hk
      refine ⟨?_, ?_, hrec.2.2.trans h1.sub⟩
      · intro k hk
        rcases hk with ⟨c'', hc'', hr''⟩
        by_cases hDk : ReachP s c k
        · exact sublist_lookup_none hrec.2.2 (h1.reach_none k hDk)
        · rcases List.mem_cons.mp hc'' with rfl | hmem
          · exact absurd hr'' hDk
          · have hr1 : ReachP s1 c'' k :=
              ReachP_transfer hwf (ReachP s c) hDclosed hpres hr'' hDk
            exact hrec.1 k ⟨c'', hmem, hr1⟩
      · intro k hk
        have hkc : ¬ ReachP s c k := hk c (List.mem_cons_self _ _)
        have h2 : ∀ c'' ∈ cs, ¬ ReachP s1 c'' k := by
          intro c'' hc'' hr1
          exact hk c'' (List.mem_cons_of_mem _ hc'')
            (ReachP_of_sublist hwf h1.sub hr1)
        rw [hrec.2.1 k h2]
        exact h1.unreach_eq k hkc

theorem delete_recursive_spec : ∀ (fuel : Nat) (s : Store) (tid : String) (s' : Store),
    WFStore s → delete_recursive fuel s tid = some s' → DelSpec s tid s' := by
  intro fuel
  induction fuel with
  | zero => intro s tid s' _ h; simp [delete_recursive] at h
  | succ fuel ih =>
    intro s tid s' hwf h
    simp only [delete_recursive] at h
    rcases hf1 : stepFold (fun s1 c => delete_recursive fuel s1 c) (get_subtasks s tid) s
      with _ | s2
    · rw [hf1] at h
      simp at h
    · rw [hf1] at h
      dsimp only at h
      rcases hf2 : stepFold (fun s1 c => delete_recursive fuel s1 c)
        (get_workflow_siblings s2 tid) s2 with _ | s3
      · rw [hf2] at h
        simp at h
      · rw [hf2] at h
        simp only [Option.some.injEq] at h
        subst h
        have h2 := stepFold_delete_spec fuel ih (get_subtasks s tid) s s2 hwf hf1
        have hwf2 : WFStore s2 := wf_sublist h2.2.2 hwf
        have h3 := stepFold_delete_spec fuel ih (get_workflow_siblings s2 tid) s2 s3
          hwf2 hf2
        have hDclosed : ∀ m k, (∃ c ∈ get_subtasks s tid, ReachP s c m) →
            childEdge s m k → ∃ c ∈ get_subtasks s tid, ReachP s c k := by
          rintro m k ⟨c, hc, hr⟩ e
          exact ⟨c, hc, hr.tail e⟩
        have hpres : ∀ k, ¬ (∃ c ∈ get_subtasks s tid, ReachP s c k) →
            lookup s2 k = lookup s k := by
          intro k hk
          exact h2.2.1 k (fun c hc hr => hk ⟨c, hc, hr⟩)
        constructor
        · -- reachable keys end as none
          intro k hk
          rcases Relation.ReflTransGen.cases_head hk with rfl | ⟨c0, e0, hr0⟩
          · exact lookup_erase_self _ _
          · have hmem0 := (List.mem_append.mp (e0 : c0 ∈ childrenOf s tid))
            by_cases hDk : ∃ c ∈ get_subtasks s tid, ReachP s c k
            · exact lookup_erase_of_none (sublist_lookup_none h3.2.2 (h2.1 k hDk))
            · rcases hmem0 with hsub0 | hsib0
              · exact absurd ⟨c0, hsub0, hr0⟩ hDk
              · have hDc0 : ¬ ∃ c ∈ get_subtasks s tid, ReachP s c c0 := by
                  rintro ⟨c, hc, hrc⟩
                  exact hDk ⟨c, hc, hrc.trans hr0⟩
                rcases (mem_get_workflow_siblings hwf).mp hsib0 with ⟨t, hl, hwso⟩
                have hl2 : lookup s2 c0 = some t := by
                  rw [hpres c0 hDc0]
                  exact hl
                have hsib2 : c0 ∈ get_workflow_siblings s2 tid :=
                  (mem_get_workflow_siblings hwf2).mpr ⟨t, hl2, hwso⟩
                have hr2 : ReachP s2 c0 k :=
                  ReachP_transfer hwf _ hDclosed hpres hr0 hDk
                exact lookup_erase_of_none (h3.1 k ⟨c0, hsib2, hr2⟩)
        · -- unreachable keys are untouched
          intro k hk
          have hktid : k ≠ tid := by
            rintro rfl
            exact hk Relation.ReflTransGen.refl
          have hsubs : ∀ c ∈ get_subtasks s tid, ¬ ReachP s c k := by
            intro c hc hr
            exact hk (Relation.ReflTransGen.head
              (List.mem_append.mpr (Or.inl hc) : childEdge s tid c) hr)
          have hsibs : ∀ c' ∈ get_workflow_siblings s2 tid, ¬ ReachP s2 c' k := by
            intro c' hc' hr2
            rcases (mem_get_workflow_siblings hwf2).mp hc' with ⟨t, hl2, hwso⟩
            have hl : lookup s c' = some t := sublist_lookup_some hwf h2.2.2 hl2
            have hsib : c' ∈ get_workflow_siblings s tid :=
              (mem_get_workflow_siblings hwf).mpr ⟨t, hl, hwso⟩
            exact hk (Relation.ReflTransGen.head
              (List.mem_append.mpr (Or.inr hsib) : childEdge s tid c')
              (ReachP_of_sublist hwf h2.2.2 hr2))
          rw [lookup_erase_ne _ hktid, h3.2.1 k hsibs, h2.2.1 k hsubs]
        · -- the result selects entries of the input
          exact ((erase_sublist s3 tid).trans h3.2.2).trans h2.2.2

/-! ### Recursive delete: termination on rank-ordered stores -/

theorem stepFold_delete_total (fuel : Nat) (rank : String → Nat)
    (IHtot : ∀ (s : Store) (tid : String), WFStore s →
      (∀ n c, childEdge s n c → rank c < rank n) → rank tid < fuel →
      ∃ s', delete_recursive fuel s tid = some s') :
    ∀ (cs : List String) (s : Store), WFStore s →
      (∀ n c, childEdge s n c → rank c < rank n) →
      (∀ c ∈ cs, rank c < fuel) →
      ∃ r, stepFold (fun s1 c => delete_recursive fuel s1 c) cs s = some r ∧
        List.Sublist r s := by
  intro cs
  induction cs with
  | nil =>
    intro s hwf _ _
    exact ⟨s, rfl, List.Sublist.refl s⟩
  | cons c cs ih =>
    intro s hwf hrk hcs
    rcases IHtot s c hwf hrk (hcs c (List.mem_cons_self _ _)) with ⟨s1, hdel⟩
    have hspec := delete_recursive_spec fuel s c s1 hwf hdel
    have hwf1 : WFStore s1 := wf_sublist hspec.sub hwf
    have hrk1 : ∀ n c', childEdge s1 n c' → rank c' < rank n :=
      fun n c' e => hrk n c' (childEdge_of_sublist hwf hspec.sub e)
    rcases ih s1 hwf1 hrk1 (fun c' hc' => hcs c' (List.mem_cons_of_mem _ hc')) with
      ⟨r, hfold, hsubr⟩
    refine ⟨r, ?_, hsubr.trans hspec.sub⟩
    simp only [stepFold, hdel]
    exact hfold

theorem delete_recursive_total (rank : String → Nat) :
    ∀ (fuel : Nat) (s : Store) (tid : String), WFStore s →
      (∀ n c, childEdge s n c → rank c < rank n) → rank tid < fuel →
      ∃ s', delete_recursive fuel s tid = some s' := by
  intro fuel
  induction fuel with
  | zero => intro s tid _ _ h; omega
  | succ fuel ih =>
    intro s tid hwf hrk hrt
    have hsubs : ∀ c ∈ get_subtasks s tid, rank c < fuel := by
      intro c hc
      have : childEdge s tid c := List.mem_append.mpr (Or.inl hc)
      have := hrk tid c this
      omega
    rcases stepFold_delete_total fuel rank ih (get_subtasks s tid) s hwf hrk hsubs with
      ⟨s2, hf1, hsub1⟩
    have hwf2 : WFStore s2 := wf_sublist hsub1 hwf
    have hrk2 : ∀ n c, childEdge s2 n c → rank c < rank n :=
      fun n c e => hrk n c (childEdge_of_sublist hwf hsub1 e)
    have hsibs : ∀ c ∈ get_workflow_siblings s2 tid, rank c < fuel := by
      intro c hc
      have e2 : childEdge s2 tid c := List.mem_append.mpr (Or.inr hc)
      have := hrk tid c (childEdge_of_sublist hwf hsub1 e2)
      omega
    rcases stepFold_delete_total fuel rank ih (get_workflow_siblings s2 tid) s2 hwf2
      hrk2 hsibs with ⟨s3, hf2, _⟩
    refine ⟨erase s3 tid, ?_⟩
    simp only [delete_recursive, hf1, hf2]

/-! ### Recursive delete: result as a filter, and the count identity -/

theorem sublist_eq_filter {s r : Store} (hwf : WFStore s) (hsub : List.Sublist r s)
    (p : String × Task → Bool) (hmem : ∀ e ∈ s, (e ∈ r ↔ p e = true)) :
    r = s.filter p := by
  induction hsub with
  | slnil => rfl
  | @cons r s0 e hsub ih =>
    have hwf0 : (e.1 ∉ s0.map Prod.fst) ∧ WFStore s0 := by
      have h2 : (e.1 :: s0.map Prod.fst).Nodup := hwf
      exact List.nodup_cons.mp h2
    have hne : e ∉ r := by
      intro hin
      exact hwf0.1 (List.mem_map.mpr ⟨e, hsub.subset hin, rfl⟩)
    have hpe : p e = false := by
      rcases Bool.eq_false_or_eq_true (p e) with h | h
      · exact absurd ((hmem e (List.mem_cons_self _ _)).mpr h) hne
      · exact h
    rw [List.filter_cons]
    simp only [hpe, Bool.false_eq_true, if_false]
    exact ih hwf0.2 (fun e' he' => by
      rw [← hmem e' (List.mem_cons_of_mem _ he')])
  | @cons₂ r0 s0 e hsub ih =>
    have hwf0 : (e.1 ∉ s0.map Prod.fst) ∧ WFStore s0 := by
      have h2 : (e.1 :: s0.map Prod.fst).Nodup := hwf
      exact List.nodup_cons.mp h2
    have hpe : p e = true :=
      (hmem e (List.mem_cons_self _ _)).mp (List.mem_cons_self _ _)
    rw [List.filter_cons]
    simp only [hpe, if_true]
    congr 1
    refine ih hwf0.2 ?_
    intro e' he'
    have hne : e' ≠ e := by
      rintro rfl
      exact hwf0.1 (List.mem_map.mpr ⟨e', he', rfl⟩)
    rw [← hmem e' (List.mem_cons_of_mem _ he')]
    constructor
    · intro h
      exact List.mem_cons_of_mem _ h
    · intro h
      rcases List.mem_cons.mp h with h | h
      · exact absurd h hne
      · exact h

theorem delete_result_eq_filter {s s' : Store} {tid : String} (hwf : WFStore s)
    (hspec : DelSpec s tid s') :
    s' = s.filter (fun e => !(decide (e.1 ∈ reachList s tid))) := by
  refine sublist_eq_filter hwf hspec.sub _ ?_
  intro e he
  rw [Bool.not_eq_true', decide_eq_false_iff_not, mem_reachList_iff]
  constructor
  · intro hin hreach
    have h1 : lookup s' e.1 = none := hspec.reach_none e.1 hreach
    have h2 : e.1 ∈ s'.map Prod.fst := List.mem_map.mpr ⟨e, hin, rfl⟩
    exact (lookup_eq_none_iff.mp h1) h2
  · intro hnr
    have h1 : lookup s' e.1 = lookup s e.1 := hspec.unreach_eq e.1 hnr
    have h2 : lookup s e.1 = some e.2 := mem_lookup_eq hwf (by cases e; exact he)
    have h3 : (e.1, e.2) ∈ s' := lookup_some_mem (by rw [h1]; exact h2)
    cases e
    exact h3

theorem nodup_same_mem_length {A B : List String} (hA : A.Nodup) (hB : B.Nodup)
    (h : ∀ x, x ∈ A ↔ x ∈ B) : A.length = B.length :=
  le_antisymm
    (List.Subperm.length_le (List.Nodup.subperm hA (fun x hx => (h x).mp hx)))
    (List.Subperm.length_le (List.Nodup.subperm hB (fun x hx => (h x).mpr hx)))

theorem length_filter_not_add {α : Type} (l : List α) (p : α → Bool) :
    (l.filter (fun e => !(p e))).length + (l.filter p).length = l.length := by
  induction l with
  | nil => rfl
  | cons e rest ih =>
    rcases Bool.eq_false_or_eq_true (p e) with h | h <;>
      simp [List.filter_cons, h] <;> omega

theorem delete_count {s : Store} {tid : String} (hwf : WFStore s)
    (hroot : contains s tid = true) :
    (s.filter (fun e => !(decide (e.1 ∈ reachList s tid)))).length
      + (reachList s tid).length = s.length := by
  have hsplit := length_filter_not_add s (fun e => decide (e.1 ∈ reachList s tid))
  have hlen : (s.filter (fun e => decide (e.1 ∈ reachList s tid))).length
      = (reachList s tid).length := by
    have hmapA : ((s.filter (fun e => decide (e.1 ∈ reachList s tid))).map
        Prod.fst).length
        = (s.filter (fun e => decide (e.1 ∈ reachList s tid))).length :=
      List.length_map _ _
    rw [← hmapA]
    refine nodup_same_mem_length ?_ (nodup_reachList s tid) ?_
    · exact List.Nodup.sublist
        (List.Sublist.map Prod.fst (List.filter_sublist s)) hwf
    · intro x
      constructor
      · intro hx
        rcases List.mem_map.mp hx with ⟨e, he, hex⟩
        rcases List.mem_filter.mp he with ⟨_, hp⟩
        rw [hex] at hp
        exact of_decide_eq_true hp
      · intro hx
        have hxk : x ∈ s.map Prod.fst := reachList_subset_keys hroot x hx
        rcases List.mem_map.mp hxk with ⟨e, he, hex⟩
        refine List.mem_map.mpr ⟨e, List.mem_filter.mpr ⟨he, ?_⟩, hex⟩
        rw [hex]
        exact decide_eq_true hx
  omega

/-! ### Recursive stash cascade -/

theorem stashUpd_idem (st : Bool) (t : Task) : stashUpd st (stashUpd st t) = stashUpd st t := by
  cases st <;> simp [stashUpd]

theorem map_stashUpd_idem (st : Bool) (o : Option Task) :
    (o.map (stashUpd st)).map (stashUpd st) = o.map (stashUpd st) := by
  cases o <;> simp [stashUpd_idem]

/-- Pointwise relation between a store and a partially stash-updated copy. -/
def OrUpd (st : Bool) (s s' : Store) : Prop :=
  ∀ k, lookup s' k = lookup s k ∨ lookup s' k = (lookup s k).map (stashUpd st)

theorem OrUpd.refl {st : Bool} {s : Store} : OrUpd st s s := fun _ => Or.inl (Eq.refl _)

theorem OrUpd.trans {st : Bool} {s1 s2 s3 : Store} (h12 : OrUpd st s1 s2)
    (h23 : OrUpd st s2 s3) : OrUpd st s1 s3 := by
  intro k
  rcases h23 k with h | h <;> rcases h12 k with h' | h'
  · exact Or.inl (h.trans h')
  · exact Or.inr (h.trans h')
  · exact Or.inr (by rw [h, h'])
  · exact Or.inr (by rw [h, h', map_stashUpd_idem])

theorem childEdge_orupd {st : Bool} {s s' : Store} (hwf : WFStore s)
    (hwf' : WFStore s') (h : OrUpd st s s') {n c : String} :
    childEdge s' n c ↔ childEdge s n c := by
  constructor
  · intro e
    rcases (childEdge_iff hwf').mp e with ⟨t', hl', hcond⟩
    rcases h c with heq | hupd
    · exact childEdge_intro (by rw [← heq]; exact hl') hcond
    · rw [hupd] at hl'
      cases hls : lookup s c with
      | none => rw [hls] at hl'; simp at hl'
      | some t =>
        rw [hls] at hl'
        simp only [Option.map_some', Option.some.injEq] at hl'
        refine childEdge_intro hls ?_
        rw [← hl'] at hcond
        simpa [stashUpd] using hcond
  · intro e
    rcases (childEdge_iff hwf).mp e with ⟨t, hl, hcond⟩
    rcases h c with heq | hupd
    · exact childEdge_intro (by rw [heq]; exact hl) hcond
    · refine @childEdge_intro s' n c (stashUpd st t) (by rw [hupd, hl]; rfl) ?_
      simpa [stashUpd] using hcond

theorem ReachP_orupd {st : Bool} {s s' : Store} (hwf : WFStore s)
    (hwf' : WFStore s') (h : OrUpd st s s') {x k : String} :
    ReachP s' x k ↔ ReachP s x k :=
  ⟨Relation.ReflTransGen.mono (fun _ _ e => (childEdge_orupd hwf hwf' h).mp e),
    Relation.ReflTransGen.mono (fun _ _ e => (childEdge_orupd hwf hwf' h).mpr e)⟩

/-- Characterisation of one stash-cascade call: every node reachable from
`tid` carries the updated flags, every other entry is untouched, and the key
sequence is unchanged. -/
structure StashSpec (st : Bool) (s : Store) (tid : String) (s' : Store) : Prop where
  keys_eq : s'.map Prod.fst = s.map Prod.fst
  reach_upd : ∀ k, ReachP s tid k → lookup s' k = (lookup s k).map (stashUpd st)
  unreach_eq : ∀ k, ¬ ReachP s tid k → lookup s' k = lookup s k

theorem StashSpec.orupd {st : Bool} {s s' : Store} {tid : String}
    (h : StashSpec st s tid s') : OrUpd st s s' := by
  intro k
  by_cases hr : ReachP s tid k
  · exact Or.inr (h.reach_upd k hr)
  · exact Or.inl (h.unreach_eq k hr)

theorem wf_of_keys_eq {s s' : Store} (h : s'.map Prod.fst = s.map Prod.fst)
    (hwf : WFStore s) : WFStore s' := by
  unfold WFStore
  rw [h]
  exact hwf

theorem contains_of_keys_eq {s s' : Store} (h : s'.map Prod.fst = s.map Prod.fst)
    {k : String} (hc : contains s k = true) : contains s' k = true := by
  rw [contains_iff_mem] at hc ⊢
  rw [h]
  exact hc

theorem stepFold_stash_spec (fuel : Nat) (st : Bool)
    (IH : ∀ (s : Store) (tid : String) (s' : Store), WFStore s →
      contains s tid = true → set_stash_recursive st fuel s tid = some s' →
      StashSpec st s tid s') :
    ∀ (cs : List String) (s r : Store), WFStore s →
      (∀ c ∈ cs, contains s c = true) →
      stepFold (fun s2 c => set_stash_recursive st fuel s2 c) cs s = some r →
      r.map Prod.fst = s.map Prod.fst ∧
      (∀ k, (∃ c ∈ cs, ReachP s c k) → lookup r k = (lookup s k).map (stashUpd st)) ∧
      (∀ k, (∀ c ∈ cs, ¬ ReachP s c k) → lookup r k = lookup s k) := by
  intro cs
  induction cs with
  | nil =>
    intro s r hwf _ h
    simp only [stepFold, Option.some.injEq] at h
    subst h
    exact ⟨rfl, fun k hk => by rcases hk with ⟨c, hc, _⟩; simp at hc,
      fun k _ => rfl⟩
  | cons c cs ih =>
    intro s r hwf hcont h
    simp only [stepFold] at h
    rcases hst : set_stash_recursive st fuel s c with _ | s1
    · rw [hst] at h
      simp at h
    · rw [hst] at h
      have h1 : StashSpec st s c s1 := IH s c s1 hwf (hcont c (List.mem_cons_self _ _)) hst
      have hwf1 : WFStore s1 := wf_of_keys_eq h1.keys_eq hwf
      have hor1 : OrUpd st s s1 := h1.orupd
      have hreach1 : ∀ x k, ReachP s1 x k ↔ ReachP s x k :=
        fun x k => ReachP_orupd hwf hwf1 hor1
      have hrec := ih s1 r hwf1
        (fun c' hc' => contains_of_keys_eq h1.keys_eq (hcont c' (List.mem_cons_of_mem _ hc')))
        h
      refine ⟨hrec.1.trans h1.keys_eq, ?_, ?_⟩
      · intro k hk
        rcases hk with ⟨c'', hc'', hr''⟩
        rcases List.mem_cons.mp hc'' with rfl | hmem
        · -- reachable from the head child
          by_cases htail : ∃ c' ∈ cs, ReachP s c' k
          · rcases htail with ⟨c', hc', hr'⟩
            rw [hrec.2.1 k ⟨c', hc', (hreach1 c' k).mpr hr'⟩]
            rw [h1.reach_upd k hr'', map_stashUpd_idem]
          · rw [hrec.2.2 k (fun c' hc' hr1 => htail ⟨c', hc', (hreach1 c' k).mp hr1⟩)]
            exact h1.reach_upd k hr''
        · -- reachable from a tail child
          rw [hrec.2.1 k ⟨c'', hmem, (hreach1 c'' k).mpr hr''⟩]
          rcases hor1 k with heq | hupd
          · rw [heq]
          · rw [hupd, map_stashUpd_idem]
      · intro k hk
        rw [hrec.2.2 k (fun c' hc' hr1 =>
          hk c' (List.mem_cons_of_mem _ hc') ((hreach1 c' k).mp hr1))]
        exact h1.unreach_eq k (hk c (List.mem_cons_self _ _))

theorem set_stash_spec : ∀ (fuel : Nat) (st : Bool) (s : Store) (tid : String) (s' : Store),
    WFStore s → contains s tid = true →
    set_stash_recursive st fuel s tid = some s' → StashSpec st s tid s' := by
  intro fuel
  induction fuel with
  | zero => intro st s tid s' _ _ h; simp [set_stash_recursive] at h
  | succ fuel ih =>
    intro st s tid s' hwf hin h
    simp only [set_stash_recursive, hin, if_true] at h
    set s1 := updateTask s tid (stashUpd st) with hs1
    have hkeys1 : s1.map Prod.fst = s.map Prod.fst := map_fst_updateTask s tid _
    have hwf1 : WFStore s1 := wf_of_keys_eq hkeys1 hwf
    have hl1self : lookup s1 tid = (lookup s tid).map (stashUpd st) :=
      lookup_updateTask_self s tid _
    have hl1ne : ∀ k, k ≠ tid → lookup s1 k = lookup s k :=
      fun k hk => lookup_updateTask_ne s _ hk
    have hor1 : OrUpd st s s1 := by
      intro k
      by_cases hk : k = tid
      · subst hk
        exact Or.inr hl1self
      · exact Or.inl (hl1ne k hk)
    have hreach1 : ∀ x k, ReachP s1 x k ↔ ReachP s x k :=
      fun x k => ReachP_orupd hwf hwf1 hor1
    have hedge1 : ∀ n c, childEdge s1 n c ↔ childEdge s n c :=
      fun n c => childEdge_orupd hwf hwf1 hor1
    rcases hf1 : stepFold (fun s2 c => set_stash_recursive st fuel s2 c)
      (get_subtasks s1 tid) s1 with _ | s2
    · rw [hf1] at h
      simp at h
    · rw [hf1] at h
      dsimp only at h
      have hsubcont : ∀ c ∈ get_subtasks s1 tid, contains s1 c = true := by
        intro c hc
        exact childEdge_contains hwf1 (List.mem_append.mpr (Or.inl hc))
      have h2 := stepFold_stash_spec fuel st (ih st) (get_subtasks s1 tid) s1 s2 hwf1
        hsubcont hf1
      have hkeys2 : s2.map Prod.fst = s.map Prod.fst := h2.1.trans hkeys1
      have hwf2 : WFStore s2 := wf_of_keys_eq hkeys2 hwf
      have hor12 : OrUpd st s1 s2 := by
        intro k
        by_cases hk : ∃ c ∈ get_subtasks s1 tid, ReachP s1 c k
        · exact Or.inr (h2.2.1 k hk)
        · exact Or.inl (h2.2.2 k (fun c hc hr => hk ⟨c, hc, hr⟩))
      have hor2 : OrUpd st s s2 := hor1.trans hor12
      have hreach2 : ∀ x k, ReachP s2 x k ↔ ReachP s x k :=
        fun x k => ReachP_orupd hwf hwf2 hor2
      have hsibcont : ∀ c ∈ get_workflow_siblings s2 tid, contains s2 c = true := by
        intro c hc
        exact childEdge_contains hwf2 (List.mem_append.mpr (Or.inr hc))
      have h3 := stepFold_stash_spec fuel st (ih st) (get_workflow_siblings s2 tid) s2 s'
        hwf2 hsibcont h
      have hor23 : OrUpd st s2 s' := by
        intro k
        by_cases hk : ∃ c ∈ get_workflow_siblings s2 tid, ReachP s2 c k
        · exact Or.inr (h3.2.1 k hk)
        · exact Or.inl (h3.2.2 k (fun c hc hr => hk ⟨c, hc, hr⟩))
      refine ⟨(h3.1.trans h2.1).trans hkeys1, ?_, ?_⟩
      · -- reachable nodes carry the updated flags
        intro k hk
        rcases Relation.ReflTransGen.cases_head hk with rfl | ⟨c0, e0, hr0⟩
        · -- the root itself
          rcases hor23 tid with heq | hupd
          · rcases hor12 tid with heq' | hupd'
            · rw [heq, heq', hl1self]
            · rw [heq, hupd', hl1self, map_stashUpd_idem]
          · rcases hor12 tid with heq' | hupd'
            · rw [hupd, heq', hl1self, map_stashUpd_idem]
            · rw [hupd, hupd', hl1self, map_stashUpd_idem, map_stashUpd_idem]
        · -- a node one edge below the root: go through the matching fold
          have he1 : childEdge s1 tid c0 := (hedge1 tid c0).mpr e0
          rcases List.mem_append.mp he1 with hsub0 | hsib0
          · -- subtask branch, handled by the first fold
            have hupd2 : lookup s2 k = (lookup s1 k).map (stashUpd st) :=
              h2.2.1 k ⟨c0, hsub0, (hreach1 c0 k).mpr hr0⟩
            have hfin : lookup s2 k = (lookup s k).map (stashUpd st) := by
              rcases hor1 k with heq | hupd
              · rw [hupd2, heq]
              · rw [hupd2, hupd, map_stashUpd_idem]
            rcases hor23 k with heq | hupd
            · rw [heq, hfin]
            · rw [hupd, hfin, map_stashUpd_idem]
          · -- workflow branch: the sibling is still a sibling in the store
            -- the second fold iterates over
            rcases (mem_get_workflow_siblings hwf1).mp hsib0 with ⟨t1, hls1, hwso⟩
            have hls2 : c0 ∈ get_workflow_siblings s2 tid := by
              rcases hor12 c0 with heq | hupd
              · exact (mem_get_workflow_siblings hwf2).mpr ⟨t1, by rw [heq]; exact hls1, hwso⟩
              · refine (mem_get_workflow_siblings hwf2).mpr
                  ⟨stashUpd st t1, by rw [hupd, hls1]; rfl, ?_⟩
                simpa [stashUpd] using hwso
            have hupd3 : lookup s' k = (lookup s2 k).map (stashUpd st) :=
              h3.2.1 k ⟨c0, hls2, (hreach2 c0 k).mpr hr0⟩
            rcases hor2 k with heq | hupd
            · rw [hupd3, heq]
            · rw [hupd3, hupd, map_stashUpd_idem]
      · -- unreachable nodes are untouched
        intro k hk
        have hktid : k ≠ tid := by
          rintro rfl
          exact hk Relation.ReflTransGen.refl
        have hsubs : ∀ c ∈ get_subtasks s1 tid, ¬ ReachP s1 c k := by
          intro c hc hr
          exact hk (Relation.ReflTransGen.head
            ((hedge1 tid c).mp (List.mem_append.mpr (Or.inl hc)))
            ((hreach1 c k).mp hr))
        have hsibs : ∀ c ∈ get_workflow_siblings s2 tid, ¬ ReachP s2 c k := by
          intro c hc hr
          have he2 : childEdge s2 tid c := List.mem_append.mpr (Or.inr hc)
          have he : childEdge s tid c := (childEdge_orupd hwf hwf2 hor2).mp he2
          exact hk (Relation.ReflTransGen.head he ((hreach2 c k).mp hr))
        rw [h3.2.2 k hsibs, h2.2.2 k hsubs]
        exact hl1ne k hktid

theorem stepFold_stash_total (fuel : Nat) (st : Bool) (rank : String → Nat)
    (IHtot : ∀ (s : Store) (tid : String), WFStore s →
      (∀ n c, childEdge s n c → rank c < rank n) → contains s tid = true →
      rank tid < fuel → ∃ s', set_stash_recursive st fuel s tid = some s')
    (IHspec : ∀ (s : Store) (tid : String) (s' : Store), WFStore s →
      contains s tid = true → set_stash_recursive st fuel s tid = some s' →
      StashSpec st s tid s') :
    ∀ (cs : List String) (s : Store), WFStore s →
      (∀ n c, childEdge s n c → rank c < rank n) →
      (∀ c ∈ cs, contains s c = true ∧ rank c < fuel) →
      ∃ r, stepFold (fun s2 c => set_stash_recursive st fuel s2 c) cs s = some r ∧
        r.map Prod.fst = s.map Prod.fst ∧ OrUpd st s r := by
  intro cs
  induction cs with
  | nil =>
    intro s hwf _ _
    exact ⟨s, rfl, rfl, OrUpd.refl⟩
  | cons c cs ih =>
    intro s hwf hrk hcs
    rcases IHtot s c hwf hrk (hcs c (List.mem_cons_self _ _)).1
      (hcs c (List.mem_cons_self _ _)).2 with ⟨s1, h1⟩
    have spec1 := IHspec s c s1 hwf (hcs c (List.mem_cons_self _ _)).1 h1
    have hwf1 : WFStore s1 := wf_of_keys_eq spec1.keys_eq hwf
    have hor1 : OrUpd st s s1 := spec1.orupd
    have hrk1 : ∀ n c', childEdge s1 n c' → rank c' < rank n :=
      fun n c' e => hrk n c' ((childEdge_orupd hwf hwf1 hor1).mp e)
    have hcs1 : ∀ c' ∈ cs, contains s1 c' = true ∧ rank c' < fuel := by
      intro c' hc'
      exact ⟨contains_of_keys_eq spec1.keys_eq
        (hcs c' (List.mem_cons_of_mem _ hc')).1,
        (hcs c' (List.mem_cons_of_mem _ hc')).2⟩
    rcases ih s1 hwf1 hrk1 hcs1 with ⟨r, hf, hkeys, hor⟩
    refine ⟨r, ?_, hkeys.trans spec1.keys_eq, hor1.trans hor⟩
    simp only [stepFold, h1]
    exact hf

theorem set_stash_total (rank : String → Nat) :
    ∀ (fuel : Nat) (st : Bool) (s : Store) (tid : String), WFStore s →
      (∀ n c, childEdge s n c → rank c < rank n) → contains s tid = true →
      rank tid < fuel →
      ∃ s', set_stash_recursive st fuel s tid = some s' := by
  intro fuel
  induction fuel with
  | zero => intro st s tid _ _ _ h; omega
  | succ fuel ih =>
    intro st s tid hwf hrk hin hrt
    set s1 := updateTask s tid (stashUpd st) with hs1def
    have hkeys1 : s1.map Prod.fst = s.map Prod.fst := map_fst_updateTask s tid _
    have hwf1 : WFStore s1 := wf_of_keys_eq hkeys1 hwf
    have hor1 : OrUpd st s s1 := by
      intro k
      by_cases hk : k = tid
      · subst hk
        exact Or.inr (lookup_updateTask_self s k _)
      · exact Or.inl (lookup_updateTask_ne s _ hk)
    have hrk1 : ∀ n c, childEdge s1 n c → rank c < rank n :=
      fun n c e => hrk n c ((childEdge_orupd hwf hwf1 hor1).mp e)
    have hsubs : ∀ c ∈ get_subtasks s1 tid, contains s1 c = true ∧ rank c < fuel := by
      intro c hc
      have e1 : childEdge s1 tid c := List.mem_append.mpr (Or.inl hc)
      refine ⟨childEdge_contains hwf1 e1, ?_⟩
      have := hrk tid c ((childEdge_orupd hwf hwf1 hor1).mp e1)
      omega
    rcases stepFold_stash_total fuel st rank (ih st) (fun a b c d e f =>
      set_stash_spec fuel st a b c d e f) (get_subtasks s1 tid) s1 hwf1 hrk1 hsubs with
      ⟨s2, hf1, hkeys12, hor12⟩
    have hwf2 : WFStore s2 := wf_of_keys_eq (hkeys12.trans hkeys1) hwf
    have hor2 : OrUpd st s s2 := hor1.trans hor12
    have hrk2 : ∀ n c, childEdge s2 n c → rank c < rank n :=
      fun n c e => hrk n c ((childEdge_orupd hwf hwf2 hor2).mp e)
    have hsibs : ∀ c ∈ get_workflow_siblings s2 tid,
        contains s2 c = true ∧ rank c < fuel := by
      intro c hc
      have e2 : childEdge s2 tid c := List.mem_append.mpr (Or.inr hc)
      refine ⟨childEdge_contains hwf2 e2, ?_⟩
      have := hrk tid c ((childEdge_orupd hwf hwf2 hor2).mp e2)
      omega
    rcases stepFold_stash_total fuel st rank (ih st) (fun a b c d e f =>
      set_stash_spec fuel st a b c d e f) (get_workflow_siblings s2 tid) s2 hwf2 hrk2
      hsibs with ⟨s3, hf2, _, _⟩
    refine ⟨s3, ?_⟩
    simp only [set_stash_recursive, hin, if_true]
    rw [← hs1def, hf1]
    dsimp only
    exact hf2

/-! ### The done toggle -/

theorem toggle_done_self {s : Store} {tid status : String}
    (hin : contains s tid = true) :
    lookup (toggle_done_status s tid status) tid =
      (lookup s tid).map (fun t =>
        { t with completed := status == "Done ✓",
                 stashed := if status == "Done ✓" then false else t.stashed }) := by
  unfold toggle_done_status
  rw [if_pos hin]
  exact lookup_updateTask_self s tid _

theorem toggle_done_other {s : Store} {tid status k : String} (hk : k ≠ tid) :
    lookup (toggle_done_status s tid status) k = lookup s k := by
  unfold toggle_done_status
  by_cases hin : contains s tid = true
  · rw [if_pos hin]
    exact lookup_updateTask_ne s _ hk
  · rw [if_neg hin]

/-! ### Priority reordering: helper lemmas -/

theorem maxTail_cases : ∀ (l : List Int) (x : Int), maxTail x l = x ∨ maxTail x l ∈ l := by
  intro l
  induction l with
  | nil => intro x; exact Or.inl rfl
  | cons y ys ih =>
    intro x
    rcases ih (max x y) with h | h
    · rcases max_cases x y with ⟨hm, _⟩ | ⟨hm, _⟩
      · exact Or.inl (by rw [maxTail, h, hm])
      · exact Or.inr (by rw [maxTail, h, hm]; exact List.mem_cons_self _ _)
    · exact Or.inr (List.mem_cons_of_mem _ (by rw [maxTail]; exact h))

theorem le_maxTail : ∀ (l : List Int) (x : Int),
    x ≤ maxTail x l ∧ ∀ y ∈ l, y ≤ maxTail x l := by
  intro l
  induction l with
  | nil => intro x; exact ⟨le_refl x, by simp⟩
  | cons y ys ih =>
    intro x
    have h := ih (max x y)
    refine ⟨le_trans (le_max_left x y) h.1, ?_⟩
    intro z hz
    rcases List.mem_cons.mp hz with rfl | hzr
    · exact le_trans (le_max_right x z) h.1
    · exact h.2 z hzr

theorem minTail_cases : ∀ (l : List Int) (x : Int), minTail x l = x ∨ minTail x l ∈ l := by
  intro l
  induction l with
  | nil => intro x; exact Or.inl rfl
  | cons y ys ih =>
    intro x
    rcases ih (min x y) with h | h
    · rcases min_cases x y with ⟨hm, _⟩ | ⟨hm, _⟩
      · exact Or.inl (by rw [minTail, h, hm])
      · exact Or.inr (by rw [minTail, h, hm]; exact List.mem_cons_self _ _)
    · exact Or.inr (List.mem_cons_of_mem _ (by rw [minTail]; exact h))

theorem minTail_le : ∀ (l : List Int) (x : Int),
    minTail x l ≤ x ∧ ∀ y ∈ l, minTail x l ≤ y := by
  intro l
  induction l with
  | nil => intro x; exact ⟨le_refl x, by simp⟩
  | cons y ys ih =>
    intro x
    have h := ih (min x y)
    refine ⟨le_trans h.1 (min_le_left x y), ?_⟩
    intro z hz
    rcases List.mem_cons.mp hz with rfl | hzr
    · exact le_trans h.1 (min_le_right x z)
    · exact h.2 z hzr

theorem updateTask_not_mem {s : Store} {k : String} (f : Task → Task)
    (h : k ∉ s.map Prod.fst) : updateTask s k f = s := by
  induction s with
  | nil => rfl
  | cons e rest ih =>
    have h1 : e.1 ≠ k := fun he => h (by rw [← he]; exact List.mem_cons_self _ _)
    have h2 : k ∉ rest.map Prod.fst := fun hr => h (List.mem_cons_of_mem _ hr)
    simp [updateTask, h1, ih h2]

theorem lookup_setPrio_self (s : Store) (k : String) (v : Option Int) :
    lookup (setPrio s k v) k = (lookup s k).map (fun t => { t with priority := v }) :=
  lookup_updateTask_self s k _

theorem lookup_setPrio_ne (s : Store) {k k' : String} (v : Option Int) (h : k' ≠ k) :
    lookup (setPrio s k v) k' = lookup s k' :=
  lookup_updateTask_ne s _ h

theorem map_fst_setPrio (s : Store) (k : String) (v : Option Int) :
    (setPrio s k v).map Prod.fst = s.map Prod.fst :=
  map_fst_updateTask s k _

/-- The list of stored priority values, whose multiset the reordering
operations must preserve. -/
def priosOf (s : Store) : List (Option Int) :=
  s.map (fun e => e.2.priority)

theorem count_setPrio {s : Store} {k : String} {t : Task} (hwf : WFStore s)
    (hl : lookup s k = some t) (v x : Option Int) :
    ((priosOf (setPrio s k v)).count x + (if t.priority = x then 1 else 0) : Nat)
      = (priosOf s).count x + (if v = x then 1 else 0) := by
  induction s with
  | nil => simp [lookup] at hl
  | cons e rest ih =>
    have hwf' : e.1 ∉ rest.map Prod.fst ∧ WFStore rest := by
      have h2 : (e.1 :: rest.map Prod.fst).Nodup := hwf
      exact List.nodup_cons.mp h2
    by_cases hek : e.1 = k
    · have ht : t = e.2 := by
        simp [lookup, hek] at hl
        exact hl.symm
      have hrest : updateTask rest k (fun t => { t with priority := v }) = rest :=
        updateTask_not_mem _ (by rw [← hek] at *; exact hwf'.1)
      subst ht
      simp only [setPrio, updateTask, hek, beq_self_eq_true, if_true] at *
      simp only [priosOf, List.map_cons, List.count_cons, hrest]
      by_cases hv : v = x <;> by_cases he2 : e.2.priority = x <;>
        simp [hv, he2] <;> omega
    · have hlr : lookup rest k = some t := by
        simpa [lookup, hek] using hl
      have := ih hwf'.2 hlr
      simp only [setPrio, updateTask, beq_iff_eq, hek, if_false, priosOf,
        List.map_cons, List.count_cons] at *
      by_cases he2 : e.2.priority = x <;> simp [he2] at * <;> omega

/-- Occurrence count of one priority value over the whole store; preserving
it for every value is the multiset-preservation property. -/
def countPrio (s : Store) (x : Option Int) : Nat :=
  (priosOf s).count x

theorem prios_swap_count {s : Store} {k1 k2 : String} {t1 t2 : Task}
    (hwf : WFStore s) (hne : k1 ≠ k2)
    (hl1 : lookup s k1 = some t1) (hl2 : lookup s k2 = some t2) :
    ∀ x, countPrio (setPrio (setPrio s k1 t2.priority) k2 t1.priority) x
      = countPrio s x := by
  intro x
  unfold countPrio
  have hwf1 : WFStore (setPrio s k1 t2.priority) := by
    unfold WFStore
    rw [map_fst_setPrio]
    exact hwf
  have hl2' : lookup (setPrio s k1 t2.priority) k2 = some t2 := by
    rw [lookup_setPrio_ne s _ (Ne.symm hne)]
    exact hl2
  have c1 := count_setPrio hwf hl1 t2.priority x
  have c2 := count_setPrio hwf1 hl2' t1.priority x
  have c3 : (priosOf (setPrio (setPrio s k1 t2.priority) k2 t1.priority)).count x
      + (if t2.priority = x then 1 else 0)
      = (priosOf s).count x + (if t2.priority = x then 1 else 0) := by
    rw [c2, c1]
  exact Nat.add_right_cancel c3

/-- Every task carries a literal priority value (the invariant the
auto-assignment on create maintains). -/
def allPrio (s : Store) : Bool :=
  s.all (fun e => e.2.priority.isSome)

theorem allPrio_lookup {s : Store} (hall : allPrio s = true) {k : String} {t : Task}
    (hl : lookup s k = some t) : ∃ p, t.priority = some p := by
  have := List.all_eq_true.mp hall (k, t) (lookup_some_mem hl)
  simp only [Option.isSome_iff_exists] at this
  exact this

theorem move_priority_up_spec (s : Store) (tid : String) (t : Task) (p : Int)
    (hwf : WFStore s) (hall : allPrio s = true)
    (hl : lookup s tid = some t) (hp : t.priority = some p) :
    ((¬ ∃ k t' p', lookup s k = some t' ∧ k ≠ tid ∧ t'.priority = some p' ∧ p' < p) →
      move_priority_up s tid = s) ∧
    ((∃ k t' p', lookup s k = some t' ∧ k ≠ tid ∧ t'.priority = some p' ∧ p' < p) →
      ∃ q tq pq, lookup s q = some tq ∧ q ≠ tid ∧ tq.priority = some pq ∧ pq < p ∧
        (∀ k' t'' p'', lookup s k' = some t'' → k' ≠ tid → t''.priority = some p'' →
          p'' < p → p'' ≤ pq) ∧
        move_priority_up s tid = setPrio (setPrio s q (some p)) tid (some pq)) := by
  have hin : contains s tid = true := by unfold contains; rw [hl]; rfl
  have hpt : pgetT t = p := by unfold pgetT; rw [hp]; rfl
  have hmove : move_priority_up s tid =
      (match (s.filter (fun e => decide (pgetT e.2 < p) && !(e.1 == tid))).map
          (fun e => pgetT e.2) with
       | [] => s
       | m :: rest =>
         match s.find? (fun e => e.2.priority == some (maxTail m rest)) with
         | none => s
         | some e => setPrio (setPrio s e.1 (some p)) tid (some (maxTail m rest))) := by
    unfold move_priority_up
    rw [if_pos hin, hl]
    dsimp only
    rw [hpt]
  have hmem : ∀ x, x ∈ (s.filter (fun e => decide (pgetT e.2 < p)
        && !(e.1 == tid))).map (fun e => pgetT e.2) ↔
      ∃ k t', lookup s k = some t' ∧ k ≠ tid ∧ t'.priority = some x ∧ x < p := by
    intro x
    constructor
    · intro hx
      rcases List.mem_map.mp hx with ⟨e, he, hex⟩
      rcases List.mem_filter.mp he with ⟨hes, hcond⟩
      simp only [Bool.and_eq_true, decide_eq_true_eq, Bool.not_eq_true',
        beq_eq_false_iff_ne, ne_eq] at hcond
      rcases allPrio_lookup hall (mem_lookup_eq hwf hes) with ⟨pe, hpe⟩
      have hpg : pgetT e.2 = pe := by unfold pgetT; rw [hpe]; rfl
      refine ⟨e.1, e.2, mem_lookup_eq hwf hes, hcond.2, ?_, ?_⟩
      · rw [hpe, ← hex, hpg]
      · rw [← hex, hpg, ← hpg]
        exact hcond.1
    · rintro ⟨k, t', hk, hne, hp', hlt⟩
      have hpg : pgetT t' = x := by unfold pgetT; rw [hp']; rfl
      refine List.mem_map.mpr ⟨(k, t'), List.mem_filter.mpr ⟨lookup_some_mem hk, ?_⟩, hpg⟩
      simp only [Bool.and_eq_true, decide_eq_true_eq, Bool.not_eq_true',
        beq_eq_false_iff_ne, ne_eq]
      exact ⟨by rw [hpg]; exact hlt, hne⟩
  rcases hlow : (s.filter (fun e => decide (pgetT e.2 < p) && !(e.1 == tid))).map
      (fun e => pgetT e.2) with _ | ⟨m, rest⟩
  · rw [hlow] at hmove
    constructor
    · intro _
      exact hmove
    · rintro ⟨k, t', p', hk, hne, hp', hlt⟩
      have : p' ∈ ([] : List Int) := by
        rw [← hlow]
        exact (hmem p').mpr ⟨k, t', hk, hne, hp', hlt⟩
      simp at this
  · rw [hlow] at hmove
    dsimp only at hmove
    have htmem : maxTail m rest ∈ m :: rest := by
      rcases maxTail_cases rest m with h | h
      · rw [h]; exact List.mem_cons_self _ _
      · exact List.mem_cons_of_mem _ h
    rcases (hmem (maxTail m rest)).mp (by rw [hlow]; exact htmem) with
      ⟨q0, tq0, hq0, hneq0, hpq0, hlt0⟩
    rcases hfind : s.find? (fun e => e.2.priority == some (maxTail m rest)) with _ | e'
    · exfalso
      have := List.find?_eq_none.mp hfind (q0, tq0) (lookup_some_mem hq0)
      simp only [beq_iff_eq] at this
      exact this hpq0
    · rw [hfind] at hmove
      have he'p : e'.2.priority = some (maxTail m rest) := by
        have := List.find?_some hfind
        simpa [beq_iff_eq] using this
      have he'mem : lookup s e'.1 = some e'.2 :=
        mem_lookup_eq hwf (List.mem_of_find?_eq_some hfind)
      have he'ne : e'.1 ≠ tid := by
        intro he
        rw [he, hl] at he'mem
        have ht : t = e'.2 := Option.some.inj he'mem
        rw [← ht] at he'p
        rw [hp] at he'p
        have h2 : p = maxTail m rest := Option.some.inj he'p
        omega
      have hclosest : ∀ k' t'' p'', lookup s k' = some t'' → k' ≠ tid →
          t''.priority = some p'' → p'' < p → p'' ≤ maxTail m rest := by
        intro k' t'' p'' hk' hne' hp'' hlt'
        have hmem' : p'' ∈ m :: rest := by
          rw [← hlow]
          exact (hmem p'').mpr ⟨k', t'', hk', hne', hp'', hlt'⟩
        rcases List.mem_cons.mp hmem' with rfl | hmemr
        · exact (le_maxTail rest p'').1
        · exact (le_maxTail rest m).2 p'' hmemr
      constructor
      · intro hno
        exact absurd ⟨q0, tq0, maxTail m rest, hq0, hneq0, hpq0, hlt0⟩ hno
      · intro _
        exact ⟨e'.1, e'.2, maxTail m rest, he'mem, he'ne, he'p, hlt0, hclosest, hmove⟩

theorem move_priority_down_spec (s : Store) (tid : String) (t : Task) (p : Int)
    (hwf : WFStore s) (hall : allPrio s = true)
    (hl : lookup s tid = some t) (hp : t.priority = some p) :
    ((¬ ∃ k t' p', lookup s k = some t' ∧ k ≠ tid ∧ t'.priority = some p' ∧ p < p') →
      move_priority_down s tid = s) ∧
    ((∃ k t' p', lookup s k = some t' ∧ k ≠ tid ∧ t'.priority = some p' ∧ p < p') →
      ∃ q tq pq, lookup s q = some tq ∧ q ≠ tid ∧ tq.priority = some pq ∧ p < pq ∧
        (∀ k' t'' p'', lookup s k' = some t'' → k' ≠ tid → t''.priority = some p'' →
          p < p'' → pq ≤ p'') ∧
        move_priority_down s tid = setPrio (setPrio s q (some p)) tid (some pq)) := by
  have hin : contains s tid = true := by unfold contains; rw [hl]; rfl
  have hpt : pgetT t = p := by unfold pgetT; rw [hp]; rfl
  have hmove : move_priority_down s tid =
      (match (s.filter (fun e => decide (p < pgetT e.2) && !(e.1 == tid))).map
          (fun e => pgetT e.2) with
       | [] => s
       | m :: rest =>
         match s.find? (fun e => e.2.priority == some (minTail m rest)) with
         | none => s
         | some e => setPrio (setPrio s e.1 (some p)) tid (some (minTail m rest))) := by
    unfold move_priority_down
    rw [if_pos hin, hl]
    dsimp only
    rw [hpt]
  have hmem : ∀ x, x ∈ (s.filter (fun e => decide (p < pgetT e.2)
        && !(e.1 == tid))).map (fun e => pgetT e.2) ↔
      ∃ k t', lookup s k = some t' ∧ k ≠ tid ∧ t'.priority = some x ∧ p < x := by
    intro x
    constructor
    · intro hx
      rcases List.mem_map.mp hx with ⟨e, he, hex⟩
      rcases List.mem_filter.mp he with ⟨hes, hcond⟩
      simp only [Bool.and_eq_true, decide_eq_true_eq, Bool.not_eq_true',
        beq_eq_false_iff_ne, ne_eq] at hcond
      rcases allPrio_lookup hall (mem_lookup_eq hwf hes) with ⟨pe, hpe⟩
      have hpg : pgetT e.2 = pe := by unfold pgetT; rw [hpe]; rfl
      refine ⟨e.1, e.2, mem_lookup_eq hwf hes, hcond.2, ?_, ?_⟩
      · rw [hpe, ← hex, hpg]
      · rw [← hex, hpg, ← hpg]
        exact hcond.1
    · rintro ⟨k, t', hk, hne, hp', hlt⟩
      have hpg : pgetT t' = x := by unfold pgetT; rw [hp']; rfl
      refine List.mem_map.mpr ⟨(k, t'), List.mem_filter.mpr ⟨lookup_some_mem hk, ?_⟩, hpg⟩
      simp only [Bool.and_eq_true, decide_eq_true_eq, Bool.not_eq_true',
        beq_eq_false_iff_ne, ne_eq]
      exact ⟨by rw [hpg]; exact hlt, hne⟩
  rcases hlow : (s.filter (fun e => decide (p < pgetT e.2) && !(e.1 == tid))).map
      (fun e => pgetT e.2) with _ | ⟨m, rest⟩
  · rw [hlow] at hmove
    constructor
    · intro _
      exact hmove
    · rintro ⟨k, t', p', hk, hne, hp', hlt⟩
      have : p' ∈ ([] : List Int) := by
        rw [← hlow]
        exact (hmem p').mpr ⟨k, t', hk, hne, hp', hlt⟩
      simp at this
  · rw [hlow] at hmove
    dsimp only at hmove
    have htmem : minTail m rest ∈ m :: rest := by
      rcases minTail_cases rest m with h | h
      · rw [h]; exact List.mem_cons_self _ _
      · exact List.mem_cons_of_mem _ h
    rcases (hmem (minTail m rest)).mp (by rw [hlow]; exact htmem) with
      ⟨q0, tq0, hq0, hneq0, hpq0, hlt0⟩
    rcases hfind : s.find? (fun e => e.2.priority == some (minTail m rest)) with _ | e'
    · exfalso
      have := List.find?_eq_none.mp hfind (q0, tq0) (lookup_some_mem hq0)
      simp only [beq_iff_eq] at this
      exact this hpq0
    · rw [hfind] at hmove
      have he'p : e'.2.priority = some (minTail m rest) := by
        have := List.find?_some hfind
        simpa [beq_iff_eq] using this
      have he'mem : lookup s e'.1 = some e'.2 :=
        mem_lookup_eq hwf (List.mem_of_find?_eq_some hfind)
      have he'ne : e'.1 ≠ tid := by
        intro he
        rw [he, hl] at he'mem
        have ht : t = e'.2 := Option.some.inj he'mem
        rw [← ht] at he'p
        rw [hp] at he'p
        have h2 : p = minTail m rest := Option.some.inj he'p
        omega
      have hclosest : ∀ k' t'' p'', lookup s k' = some t'' → k' ≠ tid →
          t''.priority = some p'' → p < p'' → minTail m rest ≤ p'' := by
        intro k' t'' p'' hk' hne' hp'' hlt'
        have hmem' : p'' ∈ m :: rest := by
          rw [← hlow]
          exact (hmem p'').mpr ⟨k', t'', hk', hne', hp'', hlt'⟩
        rcases List.mem_cons.mp hmem' with rfl | hmemr
        · exact (minTail_le rest p'').1
        · exact (minTail_le rest m).2 p'' hmemr
      constructor
      · intro hno
        exact absurd ⟨q0, tq0, minTail m rest, hq0, hneq0, hpq0, hlt0⟩ hno
      · intro _
        exact ⟨e'.1, e'.2, minTail m rest, he'mem, he'ne, he'p, hlt0, hclosest, hmove⟩

/-- Every task carries a literal nonzero priority (nonzero matters because
the drag swap reads priorities through the falsy-normalising `or 999`). -/
def allPrioNZ (s : Store) : Bool :=
  s.all (fun e => match e.2.priority with
    | some p => !(p == 0)
    | none => false)

theorem allPrioNZ_allPrio {s : Store} (h : allPrioNZ s = true) : allPrio s = true := by
  unfold allPrioNZ at h
  unfold allPrio
  rw [List.all_eq_true] at h ⊢
  intro e he
  have := h e he
  cases hp : e.2.priority with
  | none => rw [hp] at this; simp at this
  | some p => simp [hp]

theorem allPrioNZ_lookup {s : Store} (h : allPrioNZ s = true) {k : String} {t : Task}
    (hl : lookup s k = some t) : ∃ p, t.priority = some p ∧ p ≠ 0 := by
  have := List.all_eq_true.mp h (k, t) (lookup_some_mem hl)
  cases hp : t.priority with
  | none => rw [hp] at this; simp at this
  | some p =>
    rw [hp] at this
    simp only [Bool.not_eq_true', beq_eq_false_iff_ne, ne_eq] at this
    exact ⟨p, rfl, this⟩

theorem orNorm_of_ne {p : Int} (h : p ≠ 0) : orNorm p = p := by
  unfold orNorm
  simp [h]

/-- What a priority-reordering operation is allowed to do to the store:
keep the id sequence, preserve the multiset of priority values, change no
field except priorities, and touch at most two tasks. -/
def ReorderOK (s s' : Store) : Prop :=
  s'.map Prod.fst = s.map Prod.fst ∧
  (∀ x, countPrio s' x = countPrio s x) ∧
  (∀ k u, lookup s k = some u → ∃ v, lookup s' k = some { u with priority := v }) ∧
  (∃ k1 k2, ∀ k, k ≠ k1 → k ≠ k2 → lookup s' k = lookup s k)

theorem reorder_same (s : Store) : ReorderOK s s := by
  refine ⟨rfl, fun _ => rfl, ?_, ?_⟩
  · intro k u hl
    exact ⟨u.priority, hl⟩
  · exact ⟨"", "", fun _ _ _ => rfl⟩

theorem swap_reorder {s : Store} {q tid : String} {tq t : Task} {pq p : Int}
    (hwf : WFStore s) (hne : q ≠ tid)
    (hlq : lookup s q = some tq) (hlt : lookup s tid = some t)
    (hpq : tq.priority = some pq) (hpt : t.priority = some p) :
    ReorderOK s (setPrio (setPrio s q (some p)) tid (some pq)) := by
  refine ⟨?_, ?_, ?_, ⟨q, tid, ?_⟩⟩
  · rw [map_fst_setPrio, map_fst_setPrio]
  · have := @prios_swap_count s q tid tq t hwf hne hlq hlt
    rw [hpt, hpq] at this
    exact this
  · intro k u hl
    by_cases hkt : k = tid
    · subst hkt
      have hu : u = t := by rw [hl] at hlt; exact Option.some.inj hlt.symm ▸ rfl
      refine ⟨some pq, ?_⟩
      rw [lookup_setPrio_self, lookup_setPrio_ne s _ (fun h => hne h.symm), hl]
      rw [hl] at hlt
      have : u = t := Option.some.inj hlt
      rfl
    · by_cases hkq : k = q
      · subst hkq
        refine ⟨some p, ?_⟩
        rw [lookup_setPrio_ne _ _ hkt, lookup_setPrio_self, hl]
        rfl
      · refine ⟨u.priority, ?_⟩
        rw [lookup_setPrio_ne _ _ hkt, lookup_setPrio_ne _ _ hkq, hl]
  · intro k hk1 hk2
    rw [lookup_setPrio_ne _ _ hk2, lookup_setPrio_ne _ _ hk1]

theorem move_up_reorder (s : Store) (tid : String) (hwf : WFStore s)
    (hall : allPrio s = true) : ReorderOK s (move_priority_up s tid) := by
  by_cases hin : contains s tid = true
  · rcases Option.isSome_iff_exists.mp hin with ⟨t, hl⟩
    rcases allPrio_lookup hall hl with ⟨p, hp⟩
    have hspec := move_priority_up_spec s tid t p hwf hall hl hp
    by_cases hex : ∃ k t' p', lookup s k = some t' ∧ k ≠ tid ∧
        t'.priority = some p' ∧ p' < p
    · rcases hspec.2 hex with ⟨q, tq, pq, hlq, hneq, hpq, _, _, hres⟩
      rw [hres]
      exact swap_reorder hwf hneq hlq hl hpq hp
    · rw [hspec.1 hex]
      exact reorder_same s
  · have : move_priority_up s tid = s := by
      unfold move_priority_up
      rw [if_neg hin]
    rw [this]
    exact reorder_same s

theorem move_down_reorder (s : Store) (tid : String) (hwf : WFStore s)
    (hall : allPrio s = true) : ReorderOK s (move_priority_down s tid) := by
  by_cases hin : contains s tid = true
  · rcases Option.isSome_iff_exists.mp hin with ⟨t, hl⟩
    rcases allPrio_lookup hall hl with ⟨p, hp⟩
    have hspec := move_priority_down_spec s tid t p hwf hall hl hp
    by_cases hex : ∃ k t' p', lookup s k = some t' ∧ k ≠ tid ∧
        t'.priority = some p' ∧ p < p'
    · rcases hspec.2 hex with ⟨q, tq, pq, hlq, hneq, hpq, _, _, hres⟩
      rw [hres]
      exact swap_reorder hwf hneq hlq hl hpq hp
    · rw [hspec.1 hex]
      exact reorder_same s
  · have : move_priority_down s tid = s := by
      unfold move_priority_down
      rw [if_neg hin]
    rw [this]
    exact reorder_same s

theorem drag_swap_reorder (s : Store) (dragId dropId : String) (hwf : WFStore s)
    (hall : allPrioNZ s = true) : ReorderOK s (drag_swap s dragId dropId) := by
  by_cases heq : dragId = dropId
  · have : drag_swap s dragId dropId = s := by
      unfold drag_swap
      rw [if_pos (by rw [heq]; exact beq_self_eq_true _)]
    rw [this]
    exact reorder_same s
  · rcases hld : lookup s dragId with _ | td
    · have : drag_swap s dragId dropId = s := by
        unfold drag_swap
        rw [if_neg (by simpa using heq), hld]
      rw [this]
      exact reorder_same s
    · rcases hlp : lookup s dropId with _ | tp
      · have : drag_swap s dragId dropId = s := by
          unfold drag_swap
          rw [if_neg (by simpa using heq), hld, hlp]
        rw [this]
        exact reorder_same s
      · rcases allPrioNZ_lookup hall hld with ⟨pd, hpd, hpd0⟩
        rcases allPrioNZ_lookup hall hlp with ⟨pp, hpp, hpp0⟩
        have hres : drag_swap s dragId dropId =
            setPrio (setPrio s dragId (some pp)) dropId (some pd) := by
          unfold drag_swap
          rw [if_neg (by simpa using heq), hld, hlp]
          dsimp only
          rw [hpd, hpp]
          simp only [Option.getD_some]
          rw [orNorm_of_ne hpd0, orNorm_of_ne hpp0]
        rw [hres]
        exact swap_reorder hwf heq hld hlp hpd hpp

/-! ### Layout pipeline lemmas -/

theorem refresh_pipeline_idem (st : AppState) (fuel : Nat) (st1 st2 : AppState)
    (h1 : refresh_pipeline st fuel = some st1)
    (h2 : refresh_pipeline st1 fuel = some st2) :
    st2.task_positions = st1.task_positions := by
  unfold refresh_pipeline at h1
  rcases hr : renderRoots st.tasks st.dims fuel
      (root_tasks st.tasks st.current_view st.sort_mode) 40 [] with _ | p
  · rw [hr] at h1
    simp at h1
  · rw [hr] at h1
    simp only [Option.some.injEq] at h1
    subst h1
    unfold refresh_pipeline at h2
    rw [show ({ st with task_positions := p } : AppState).tasks = st.tasks from rfl,
      show ({ st with task_positions := p } : AppState).dims = st.dims from rfl,
      show ({ st with task_positions := p } : AppState).current_view = st.current_view
        from rfl,
      show ({ st with task_positions := p } : AppState).sort_mode = st.sort_mode
        from rfl, hr] at h2
    simp only [Option.some.injEq] at h2
    subst h2
    rfl

theorem posLookup_posInsert_ne {p : PosMap} {k k' : String} (r : Rect) (h : k' ≠ k) :
    posLookup (posInsert p k r) k' = posLookup p k' := by
  induction p with
  | nil => simp [posInsert, posLookup, h, Ne.symm h]
  | cons e rest ih =>
    by_cases hek : e.1 = k
    · have h1 : e.1 ≠ k' := fun hx => h (hx ▸ hek)
      simp [posInsert, posLookup, hek, h1, Ne.symm h]
    · by_cases hek' : e.1 = k'
      · simp [posInsert, posLookup, hek, hek', h]
      · simp [posInsert, posLookup, hek, hek', h, ih]

theorem renderLoop_avoid (s : Store) (d : Dims) (tid : String)
    (hnoedge : ∀ n, contains s n = true → ¬ childEdge s n tid) :
    ∀ (fuel : Nat) (queue : List (String × Int × Int)) (p : PosMap) (maxY : Int)
      (res : PosMap × Int),
      (∀ q ∈ queue, q.1 ≠ tid) → posLookup p tid = none →
      renderLoop s d fuel queue p maxY = some res → posLookup res.1 tid = none := by
  intro fuel
  induction fuel with
  | zero =>
    intro queue p maxY res hq hp h
    cases queue with
    | nil =>
      simp only [renderLoop, Option.some.injEq] at h
      subst h
      exact hp
    | cons q rest => simp [renderLoop] at h
  | succ fuel ih =>
    intro queue p maxY res hq hp h
    cases queue with
    | nil =>
      simp only [renderLoop, Option.some.injEq] at h
      subst h
      exact hp
    | cons q rest =>
      rcases q with ⟨qid, qx, qy⟩
      rcases hql : lookup s qid with _ | qt
      · simp only [renderLoop, hql] at h
        exact ih rest p maxY res (fun q' hq' => hq q' (List.mem_cons_of_mem _ hq')) hp h
      · simp only [renderLoop, hql] at h
        have hqin : contains s qid = true := by unfold contains; rw [hql]; rfl
        have hqid : qid ≠ tid := hq (qid, qx, qy) (List.mem_cons_self _ _)
        refine ih _ _ _ res ?_ ?_ h
        · intro q' hq'
          rcases List.mem_append.mp hq' with hq'' | hq''
          · rcases List.mem_append.mp hq'' with hr | hs
            · exact hq q' (List.mem_cons_of_mem _ hr)
            · rcases List.mem_map.mp hs with ⟨ic, hic, hq'eq⟩
              have hsub : ic.2 ∈ get_subtasks s qid :=
                List.get?_mem (List.mem_enum_iff_get?.mp hic)
              have hedge : childEdge s qid ic.2 := List.mem_append.mpr (Or.inl hsub)
              have hne : ic.2 ≠ tid := fun he => hnoedge qid hqin (he ▸ hedge)
              rw [← hq'eq]
              exact hne
          · rcases List.mem_map.mp hq'' with ⟨ic, hic, hq'eq⟩
            have hsib : ic.2 ∈ get_workflow_siblings s qid :=
              List.get?_mem (List.mem_enum_iff_get?.mp hic)
            have hedge : childEdge s qid ic.2 := List.mem_append.mpr (Or.inr hsib)
            have hne : ic.2 ≠ tid := fun he => hnoedge qid hqin (he ▸ hedge)
            rw [← hq'eq]
            exact hne
        · rw [posLookup_posInsert_ne _ (Ne.symm hqid)]
          exact hp

theorem mem_root_tasks {s : Store} (hwf : WFStore s) {view mode k : String}
    (h : k ∈ root_tasks s view mode) :
    ∃ t, lookup s k = some t ∧ t.parent_id = none ∧
      truthyStr t.workflow_sibling_of = false := by
  unfold root_tasks at h
  have hroots : k ∈
      (if (view == "todo") = true then
        (s.filter (fun e => e.2.parent_id == none && !e.2.completed && !e.2.stashed
          && !(truthyStr e.2.workflow_sibling_of))).map (fun e => e.1)
      else if (view == "done") = true then
        (s.filter (fun e => e.2.parent_id == none && e.2.completed
          && !(truthyStr e.2.workflow_sibling_of))).map (fun e => e.1)
      else if (view == "stash") = true then
        (s.filter (fun e => e.2.parent_id == none && e.2.stashed
          && !(truthyStr e.2.workflow_sibling_of))).map (fun e => e.1)
      else []) := by
    by_cases hsm : (mode == "priority") = true
    · rw [if_pos hsm] at h
      exact mem_sortByLe.mp h
    · rw [if_neg hsm] at h
      exact mem_sortByLe.mp h
  by_cases hv1 : (view == "todo") = true
  · rw [if_pos hv1] at hroots
    rcases mem_filter_map_fst.mp hroots with ⟨t, hts, hcond⟩
    simp only [Bool.and_eq_true, beq_iff_eq, Bool.not_eq_true'] at hcond
    exact ⟨t, mem_lookup_eq hwf hts, hcond.1.1.1, hcond.2⟩
  · rw [if_neg hv1] at hroots
    by_cases hv2 : (view == "done") = true
    · rw [if_pos hv2] at hroots
      rcases mem_filter_map_fst.mp hroots with ⟨t, hts, hcond⟩
      simp only [Bool.and_eq_true, beq_iff_eq, Bool.not_eq_true'] at hcond
      exact ⟨t, mem_lookup_eq hwf hts, hcond.1.1, hcond.2⟩
    · rw [if_neg hv2] at hroots
      by_cases hv3 : (view == "stash") = true
      · rw [if_pos hv3] at hroots
        rcases mem_filter_map_fst.mp hroots with ⟨t, hts, hcond⟩
        simp only [Bool.and_eq_true, beq_iff_eq, Bool.not_eq_true'] at hcond
        exact ⟨t, mem_lookup_eq hwf hts, hcond.1.1, hcond.2⟩
      · rw [if_neg hv3] at hroots
        simp at hroots

theorem render_task_tree_avoid (s : Store) (d : Dims) (tid : String)
    (hnoedge : ∀ n, contains s n = true → ¬ childEdge s n tid)
    (fuel : Nat) (root : String) (x y : Int) (p : PosMap) (res : PosMap × Int)
    (hroot : root ≠ tid) (hp : posLookup p tid = none)
    (h : render_task_tree s d fuel root x y p = some res) :
    posLookup res.1 tid = none := by
  unfold render_task_tree at h
  rcases hl : lookup s root with _ | t
  · rw [hl] at h
    simp only [Option.some.injEq] at h
    rw [← h]
    exact hp
  · rw [hl] at h
    rcases hloop : renderLoop s d fuel [(root, x, y)] p y with _ | pr
    · rw [hloop] at h
      simp at h
    · rw [hloop] at h
      have hres : posLookup pr.1 tid = none := by
        refine renderLoop_avoid s d tid hnoedge fuel [(root, x, y)] p y pr ?_ hp ?_
        · intro q hq
          rcases List.mem_singleton.mp hq with rfl
          exact hroot
        · rw [hloop]
      rcases pr with ⟨p1, maxY⟩
      dsimp only at h
      simp only [Option.some.injEq] at h
      rw [← h]
      exact hres

theorem renderRoots_avoid (s : Store) (d : Dims) (tid : String)
    (hnoedge : ∀ n, contains s n = true → ¬ childEdge s n tid) :
    ∀ (roots : List String) (fuel : Nat) (y : Int) (p : PosMap) (res : PosMap),
      (∀ rt ∈ roots, rt ≠ tid) → posLookup p tid = none →
      renderRoots s d fuel roots y p = some res → posLookup res tid = none := by
  intro roots
  induction roots with
  | nil =>
    intro fuel y p res _ hp h
    simp only [renderRoots, Option.some.injEq] at h
    rw [← h]
    exact hp
  | cons rt roots ih =>
    intro fuel y p res hr hp h
    simp only [renderRoots] at h
    rcases htree : render_task_tree s d fuel rt 40 y p with _ | pr
    · rw [htree] at h
      simp at h
    · rw [htree] at h
      rcases pr with ⟨p1, hgt⟩
      dsimp only at h
      have h1 : posLookup p1 tid = none :=
        render_task_tree_avoid s d tid hnoedge fuel rt 40 y p (p1, hgt)
          (hr rt (List.mem_cons_self _ _)) hp htree
      exact ih fuel (y + hgt + 40) p1 res
        (fun rt' hrt' => hr rt' (List.mem_cons_of_mem _ hrt')) h1 h

theorem refresh_pipeline_avoid (st : AppState) (fuel : Nat) (tid : String)
    (st' : AppState) (t : Task) (hwf : WFStore st.tasks)
    (hl : lookup st.tasks tid = some t)
    (hdang : (∃ pg, t.parent_id = some pg ∧ pg ∉ st.tasks.map Prod.fst ∧
        t.workflow_sibling_of = none) ∨
      (∃ w, t.workflow_sibling_of = some w ∧ w ∉ st.tasks.map Prod.fst ∧ w ≠ ""))
    (h : refresh_pipeline st fuel = some st') :
    posLookup st'.task_positions tid = none := by
  have hnoedge : ∀ n, contains st.tasks n = true → ¬ childEdge st.tasks n tid := by
    intro n hn he
    rcases (childEdge_iff hwf).mp he with ⟨t', hl', hcond⟩
    have ht : t' = t := by rw [hl] at hl'; exact (Option.some.inj hl').symm
    subst ht
    rcases hdang with ⟨pg, hpg, hpgm, hwnone⟩ | ⟨w, hw, hwm, hwne⟩
    · rcases hcond with ⟨h1, _⟩ | h1
      · rw [hpg] at h1
        have : pg = n := Option.some.inj h1
        subst this
        exact hpgm (contains_iff_mem.mp hn)
      · rw [hwnone] at h1
        simp at h1
    · rcases hcond with ⟨_, h2⟩ | h1
      · rw [hw] at h2
        simp [truthyStr, hwne] at h2
      · rw [hw] at h1
        have : w = n := Option.some.inj h1
        subst this
        exact hwm (contains_iff_mem.mp hn)
  have hroots : ∀ rt ∈ root_tasks st.tasks st.current_view st.sort_mode, rt ≠ tid := by
    intro rt hrt he
    subst he
    rcases mem_root_tasks hwf hrt with ⟨t', hl', hpar, htru⟩
    have ht : t' = t := by rw [hl] at hl'; exact (Option.some.inj hl').symm
    subst ht
    rcases hdang with ⟨pg, hpg, _, _⟩ | ⟨w, hw, _, hwne⟩
    · rw [hpg] at hpar
      simp at hpar
    · rw [hw] at htru
      simp [truthyStr, hwne] at htru
  unfold refresh_pipeline at h
  rcases hr : renderRoots st.tasks st.dims fuel
      (root_tasks st.tasks st.current_view st.sort_mode) 40 [] with _ | p
  · rw [hr] at h
    simp at h
  · rw [hr] at h
    simp only [Option.some.injEq] at h
    rw [← h]
    exact renderRoots_avoid st.tasks st.dims tid hnoedge _ fuel 40 [] p hroots rfl hr

/-! ### Store-order indices for the stability statements -/

theorem nodup_pairwise_indexOf {l : List String} (h : l.Nodup) :
    l.Pairwise (fun a b => l.indexOf a < l.indexOf b) := by
  rw [List.pairwise_iff_getElem]
  intro i j hi hj hij
  rw [List.indexOf_getElem h i hi, List.indexOf_getElem h j hj]
  exact hij

theorem sub_keys_pairwise {s : Store} (hwf : WFStore s) {fl : List String}
    (hsub : List.Sublist fl (s.map Prod.fst)) :
    fl.Pairwise (fun a b =>
      (s.map Prod.fst).indexOf a < (s.map Prod.fst).indexOf b) :=
  List.Pairwise.sublist hsub (nodup_pairwise_indexOf hwf)

/-! ### Concrete stores used by witnesses and counterexamples -/

/-- Builds a task record with an empty description. -/
def mkTask (title created : String) (prio : Option Int) (parent wso : Option String)
    (completed stashed : Bool) : Task :=
  ⟨title, "", completed, stashed, parent, wso, created, prio⟩

/-- The spec's scenario store: root A, subtask B of A, workflow sibling C of B. -/
def csABC : Store :=
  [("A", mkTask "A" "t1" (some 1) none none false false),
   ("B", mkTask "B" "t2" (some 2) (some "A") none false false),
   ("C", mkTask "C" "t3" (some 3) (some "A") (some "B") false false)]

/-- A topological rank for `csABC`. -/
def rnkABC : String → Nat :=
  fun k => if k == "A" then 2 else if k == "B" then 1 else 0

/-- A malformed store with a two-task workflow-sibling cycle. -/
def csCyc : Store :=
  [("A", mkTask "A" "t1" (some 1) none (some "B") false false),
   ("B", mkTask "B" "t2" (some 2) none (some "A") false false)]

/-- Root R with subtasks S1 and S2, where S1 has its own subtask S1a: the
store on which the card layout collides. -/
def cs4 : Store :=
  [("R", mkTask "R" "c0" (some 1) none none false false),
   ("S1", mkTask "S1" "c1" (some 2) (some "R") none false false),
   ("S2", mkTask "S2" "c2" (some 3) (some "R") none false false),
   ("S1a", mkTask "S1a" "c3" (some 4) (some "S1") none false false)]

/-- The application state rendering `cs4` in the todo card view at zoom 1.0. -/
def st4 : AppState :=
  { tasks := cs4, current_view := "todo", sort_mode := "priority",
    dims := dims1, task_positions := [] }

/-- The position map one layout pass over `cs4` computes. -/
def pos4 : PosMap :=
  [("R", (40, 40, 240, 120)), ("S1", (340, 40, 240, 120)),
   ("S2", (640, 40, 240, 120)), ("S1a", (640, 40, 240, 120))]

/-- The state after one refresh of `st4`. -/
def st4r : AppState :=
  { st4 with task_positions := pos4 }

/-- The spec's priority scenario: root tasks X (priority 5) and Y (priority 2). -/
def cs7 : Store :=
  [("X", mkTask "X" "t1" (some 5) none none false false),
   ("Y", mkTask "Y" "t2" (some 2) none none false false)]

/-- Parent P with subtasks of priority 0 and 500: the store refuting the
claimed priority sort order. -/
def cs6 : Store :=
  [("P", mkTask "P" "t1" (some 1) none none false false),
   ("A0", mkTask "A0" "d1" (some 0) (some "P") none false false),
   ("B500", mkTask "B500" "d2" (some 500) (some "P") none false false)]

/-- A store whose only task has a dangling `parent_id`. -/
def cs9 : Store :=
  [("B", mkTask "B" "t1" (some 1) (some "ghost") none false false)]

/-- The application state rendering `cs9` in the todo card view. -/
def st9 : AppState :=
  { tasks := cs9, current_view := "todo", sort_mode := "priority",
    dims := dims1, task_positions := [] }

/-! ### Claim theorems -/

/-- C1: on a well-formed store admitting a topological rank (the data
model's acyclicity invariant), recursive delete of a present root succeeds
and removes exactly the set of tasks transitively reachable from the root
via `get_subtasks` and `get_workflow_siblings` edges: every reachable key is
gone, every unreachable entry is untouched, and the task count drops by
exactly the size of the reachable set. -/
theorem C1_delete_removes_exactly_reachable (s : Store) (root : String)
    (rank : String → Nat) (fuel : Nat) (hwf : WFStore s)
    (hrk : rankOk s rank = true) (hroot : contains s root = true)
    (hfuel : rank root < fuel) :
    ∃ s', delete_recursive fuel s root = some s' ∧
      (∀ k, ReachP s root k → lookup s' k = none) ∧
      (∀ k, ¬ ReachP s root k → lookup s' k = lookup s k) ∧
      s'.length + (reachList s root).length = s.length := by
  have hrk' : ∀ n c, childEdge s n c → rank c < rank n :=
    fun n c e => rankOk_spec hrk hwf e
  rcases delete_recursive_total rank fuel s root hwf hrk' hfuel with ⟨s', hdel⟩
  have hspec := delete_recursive_spec fuel s root s' hwf hdel
  have hfil := delete_result_eq_filter hwf hspec
  refine ⟨s', hdel, hspec.reach_none, hspec.unreach_eq, ?_⟩
  rw [hfil]
  exact delete_count hwf hroot

/-- C1 witness: deleting root A of the scenario store removes A, B and C. -/
theorem C1_witness :
    (WFStore csABC ∧ rankOk csABC rnkABC = true ∧ contains csABC "A" = true ∧
      rnkABC "A" < 3) ∧
    (∃ s', delete_recursive 3 csABC "A" = some s' ∧
      (∀ k, ReachP csABC "A" k → lookup s' k = none) ∧
      (∀ k, ¬ ReachP csABC "A" k → lookup s' k = lookup csABC k) ∧
      s'.length + (reachList csABC "A").length = csABC.length) :=
  ⟨⟨by decide, by decide, by decide, by decide⟩,
    C1_delete_removes_exactly_reachable csABC "A" rnkABC 3 (by decide) (by decide)
      (by decide) (by decide)⟩

/-- C2: the stash cascade succeeds on a rank-ordered store, sets
`stashed = st` on the root and on every task transitively reachable through
`get_subtasks` and `get_workflow_siblings`, forcing `completed = False`
whenever it stashes, and touches no unreachable task; the done toggle sets
`completed` from the status string, forces `stashed = False` exactly when
marking complete, and touches only the one toggled task. -/
theorem C2_stash_cascade_and_done_toggle (s : Store) (root : String) (st : Bool)
    (rank : String → Nat) (fuel : Nat) (hwf : WFStore s)
    (hrk : rankOk s rank = true) (hroot : contains s root = true)
    (hfuel : rank root < fuel) :
    (∃ s', set_stash_recursive st fuel s root = some s' ∧
      (∀ k t, ReachP s root k → lookup s k = some t →
        lookup s' k = some { t with stashed := st, completed := if st then false else t.completed }) ∧
      (∀ k, ¬ ReachP s root k → lookup s' k = lookup s k)) ∧
    (∀ tid status t, lookup s tid = some t →
      lookup (toggle_done_status s tid status) tid =
        some { t with completed := (status == "Done ✓"), stashed := if (status == "Done ✓") then false else t.stashed } ∧
      (∀ k, k ≠ tid → lookup (toggle_done_status s tid status) k = lookup s k)) := by
  have hrk' : ∀ n c, childEdge s n c → rank c < rank n :=
    fun n c e => rankOk_spec hrk hwf e
  constructor
  · rcases set_stash_total rank fuel st s root hwf hrk' hroot hfuel with ⟨s', hstash⟩
    have hspec := set_stash_spec fuel st s root s' hwf hroot hstash
    refine ⟨s', hstash, ?_, hspec.unreach_eq⟩
    intro k t hr hl
    have := hspec.reach_upd k hr
    rw [hl] at this
    exact this
  · intro tid status t hl
    have hin : contains s tid = true := by unfold contains; rw [hl]; rfl
    constructor
    · rw [toggle_done_self hin, hl]
      rfl
    · intro k hk
      exact toggle_done_other hk

/-- C2 witness: stashing root A of the scenario store stashes and
un-completes A, B and C, and the done toggle on A only touches A. -/
theorem C2_witness :
    (WFStore csABC ∧ rankOk csABC rnkABC = true ∧ contains csABC "A" = true ∧
      rnkABC "A" < 3) ∧
    ((∃ s', set_stash_recursive true 3 csABC "A" = some s' ∧
      (∀ k t, ReachP csABC "A" k → lookup csABC k = some t →
        lookup s' k = some { t with stashed := true, completed := if true then false else t.completed }) ∧
      (∀ k, ¬ ReachP csABC "A" k → lookup s' k = lookup csABC k)) ∧
    (∀ tid status t, lookup csABC tid = some t →
      lookup (toggle_done_status csABC tid status) tid =
        some { t with completed := (status == "Done ✓"), stashed := if (status == "Done ✓") then false else t.stashed } ∧
      (∀ k, k ≠ tid → lookup (toggle_done_status csABC tid status) k = lookup csABC k))) :=
  ⟨⟨by decide, by decide, by decide, by decide⟩,
    C2_stash_cascade_and_done_toggle csABC "A" true rnkABC 3 (by decide) (by decide)
      (by decide) (by decide)⟩

theorem csCyc_delete_none : ∀ fuel, delete_recursive fuel csCyc "A" = none ∧
    delete_recursive fuel csCyc "B" = none := by
  intro fuel
  induction fuel with
  | zero => exact ⟨rfl, rfl⟩
  | succ fuel ih =>
    constructor
    · show delete_recursive (fuel + 1) csCyc "A" = none
      simp only [delete_recursive,
        show get_subtasks csCyc "A" = [] from rfl, stepFold,
        show get_workflow_siblings csCyc "A" = ["B"] from rfl, ih.2]
    · show delete_recursive (fuel + 1) csCyc "B" = none
      simp only [delete_recursive,
        show get_subtasks csCyc "B" = [] from rfl, stepFold,
        show get_workflow_siblings csCyc "B" = ["A"] from rfl, ih.1]

/-- C3 counterexample: the source has no visited set, and on the two-task
workflow-sibling cycle the recursive delete exhausts every finite recursion
depth: no amount of fuel makes it return. -/
theorem C3_counterexample :
    ¬ ∃ (fuel : Nat) (s' : Store), delete_recursive fuel csCyc "A" = some s' := by
  rintro ⟨fuel, s', h⟩
  rw [(csCyc_delete_none fuel).1] at h
  exact Option.noConfusion h

/-- C3 amended: recursive delete and the stash cascade have no visited-set
guard; they do terminate on every well-formed store admitting a topological
rank (any acyclic store), with recursion depth bounded by the root's rank,
but a malformed cyclic store makes the recursion run forever. -/
theorem C3_amended_cascades_terminate_on_ranked_stores (s : Store) (root : String)
    (rank : String → Nat) (fuel : Nat) (hwf : WFStore s)
    (hrk : rankOk s rank = true) (hfuel : rank root < fuel) :
    (∃ s', delete_recursive fuel s root = some s') ∧
    (∀ st, contains s root = true →
      ∃ s', set_stash_recursive st fuel s root = some s') := by
  have hrk' : ∀ n c, childEdge s n c → rank c < rank n :=
    fun n c e => rankOk_spec hrk hwf e
  constructor
  · exact delete_recursive_total rank fuel s root hwf hrk' hfuel
  · intro st hroot
    exact set_stash_total rank fuel st s root hwf hrk' hroot hfuel

/-- C3 witness: both cascades terminate on the acyclic scenario store. -/
theorem C3_witness :
    (WFStore csABC ∧ rankOk csABC rnkABC = true ∧ rnkABC "A" < 3) ∧
    ((∃ s', delete_recursive 3 csABC "A" = some s') ∧
     (∀ st, contains csABC "A" = true →
        ∃ s', set_stash_recursive st 3 csABC "A" = some s')) :=
  ⟨⟨by decide, by decide, by decide⟩,
    C3_amended_cascades_terminate_on_ranked_stores csABC "A" rnkABC 3 (by decide)
      (by decide) (by decide)⟩

/-- C4: evaluating the card layout of `main5.0.0.py` at the failing input
(root R with subtasks S1 and S2, S1 having subtask S1a, zoom 1.0, todo
view): the pass advances the subtask axis by the static
`card_width + card_spacing_h` offset its own comment claims is a computed
branch width, so S2 and the deeper S1a are placed on the identical
rectangle and the prescribed no-overlap property fails. -/
theorem C4_layout_overlap_at_failing_input :
    (refresh_pipeline st4 10).map (fun st => (posLookup st.task_positions "S2",
      posLookup st.task_positions "S1a")) =
      some (some (640, 40, 240, 120), some (640, 40, 240, 120)) ∧
    rectsOverlap (640, 40, 240, 120) (640, 40, 240, 120) = true ∧
    "S2" ≠ "S1a" :=
  ⟨by decide, by decide, by decide⟩

/-- C5: `get_workflow_siblings` returns exactly the tasks whose
`workflow_sibling_of` equals the anchor, in ascending `created` order, and
only direct siblings: a returned task's `workflow_sibling_of` can never
point at another returned task distinct from the anchor. -/
theorem C5_workflow_siblings_direct_only (s : Store) (anchor : String)
    (hwf : WFStore s) :
    (∀ c, c ∈ get_workflow_siblings s anchor ↔
      ∃ t, lookup s c = some t ∧ t.workflow_sibling_of = some anchor) ∧
    (get_workflow_siblings s anchor).Pairwise
      (fun a b => createdOf s a ≤ createdOf s b) ∧
    (∀ c t m, c ∈ get_workflow_siblings s anchor → lookup s c = some t →
      t.workflow_sibling_of = some m → m = anchor) := by
  refine ⟨fun c => mem_get_workflow_siblings hwf, ?_, ?_⟩
  · have hpair := sortByLe_pairwise_lex (createdOf s)
      (fun k => (s.map Prod.fst).indexOf k)
      ((s.filter (fun e => e.2.workflow_sibling_of == some anchor)).map (fun e => e.1))
      (sub_keys_pairwise hwf
        (List.Sublist.map (fun e => e.1) (List.filter_sublist s)))
    unfold get_workflow_siblings
    refine List.Pairwise.imp ?_ hpair
    intro a b hab
    rcases hab with h | ⟨h, _⟩
    · exact le_of_lt h
    · exact le_of_eq h
  · intro c t m hc hl hm
    rcases (mem_get_workflow_siblings hwf).mp hc with ⟨t', hl', hw'⟩
    have ht : t' = t := by rw [hl] at hl'; exact (Option.some.inj hl').symm
    subst ht
    rw [hm] at hw'
    exact Option.some.inj hw'

/-- C5 witness: on the scenario store, the direct siblings of B are exactly
C, and C's anchor is B itself. -/
theorem C5_witness :
    WFStore csABC ∧
    ((∀ c, c ∈ get_workflow_siblings csABC "B" ↔
      ∃ t, lookup csABC c = some t ∧ t.workflow_sibling_of = some "B") ∧
    (get_workflow_siblings csABC "B").Pairwise
      (fun a b => createdOf csABC a ≤ createdOf csABC b) ∧
    (∀ c t m, c ∈ get_workflow_siblings csABC "B" → lookup csABC c = some t →
      t.workflow_sibling_of = some m → m = "B")) :=
  ⟨by decide, C5_workflow_siblings_direct_only csABC "B" (by decide)⟩

/-- C6 counterexample: under parent P the code lists the priority-500 task
before the priority-0 task, because the sort key `get('priority', 999) or
999` normalises the falsy priority 0 to the sentinel 999; the claimed
ascending-by-priority order (with only absent priorities normalised) would
put priority 0 first. -/
theorem C6_counterexample :
    get_subtasks cs6 "P" = ["B500", "A0"] ∧
    (lookup cs6 "A0").map Task.priority = some (some 0) ∧
    (lookup cs6 "B500").map Task.priority = some (some 500) ∧
    prioKeyOf cs6 "A0" = 999 ∧ prioKeyOf cs6 "B500" = 500 :=
  ⟨by decide, by decide, by decide, by decide, by decide⟩

/-- C6 amended: `get_subtasks` returns exactly the tasks whose `parent_id`
equals the parent and whose `workflow_sibling_of` is falsy (absent, null or
empty), sorted ascending by the falsy-normalised priority key (absent, null
or zero priorities all collapse to the sentinel 999), with equal keys kept
in store insertion order. -/
theorem C6_amended_get_subtasks_spec (s : Store) (pid : String) (hwf : WFStore s) :
    (∀ c, c ∈ get_subtasks s pid ↔
      ∃ t, lookup s c = some t ∧ t.parent_id = some pid ∧
        truthyStr t.workflow_sibling_of = false) ∧
    (∀ c t, lookup s c = some t →
      prioKeyOf s c = orNorm (t.priority.getD 999)) ∧
    (get_subtasks s pid).Pairwise (fun a b =>
      prioKeyOf s a < prioKeyOf s b ∨
      (prioKeyOf s a = prioKeyOf s b ∧
        (s.map Prod.fst).indexOf a < (s.map Prod.fst).indexOf b)) := by
  refine ⟨fun c => mem_get_subtasks hwf, ?_, ?_⟩
  · intro c t hl
    unfold prioKeyOf
    rw [hl]
  · have hpair := sortByLe_pairwise_lex (prioKeyOf s)
      (fun k => (s.map Prod.fst).indexOf k)
      ((s.filter (fun e => e.2.parent_id == some pid
        && !(truthyStr e.2.workflow_sibling_of))).map (fun e => e.1))
      (sub_keys_pairwise hwf
        (List.Sublist.map (fun e => e.1) (List.filter_sublist s)))
    unfold get_subtasks
    exact hpair

/-- C6 witness: on the counterexample store the amended characterisation
holds, including the stable falsy-normalised order. -/
theorem C6_witness :
    WFStore cs6 ∧
    ((∀ c, c ∈ get_subtasks cs6 "P" ↔
      ∃ t, lookup cs6 c = some t ∧ t.parent_id = some "P" ∧
        truthyStr t.workflow_sibling_of = false) ∧
    (∀ c t, lookup cs6 c = some t →
      prioKeyOf cs6 c = orNorm (t.priority.getD 999)) ∧
    (get_subtasks cs6 "P").Pairwise (fun a b =>
      prioKeyOf cs6 a < prioKeyOf cs6 b ∨
      (prioKeyOf cs6 a = prioKeyOf cs6 b ∧
        (cs6.map Prod.fst).indexOf a < (cs6.map Prod.fst).indexOf b))) :=
  ⟨by decide, C6_amended_get_subtasks_spec cs6 "P" (by decide)⟩

/-- C7: under the program's own priority invariant (every task carries a
literal priority), the relative move finds among all other tasks the one
whose priority is closest strictly below (move up) or strictly above (move
down) the moved task's priority, swaps exactly those two priority values,
and is a no-op when no such neighbour exists; in particular, with root
tasks X (priority 5) and Y (priority 2), moving X up leaves X at 2 and Y
at 5. -/
theorem C7_relative_priority_move :
    ((lookup (move_priority_up cs7 "X") "X").map Task.priority = some (some 2) ∧
     (lookup (move_priority_up cs7 "X") "Y").map Task.priority = some (some 5)) ∧
    (∀ (s : Store) (tid : String) (t : Task) (p : Int), WFStore s →
      allPrio s = true → lookup s tid = some t → t.priority = some p →
      ((¬ ∃ k t' p', lookup s k = some t' ∧ k ≠ tid ∧ t'.priority = some p' ∧ p' < p) →
        move_priority_up s tid = s) ∧
      ((∃ k t' p', lookup s k = some t' ∧ k ≠ tid ∧ t'.priority = some p' ∧ p' < p) →
        ∃ q tq pq, lookup s q = some tq ∧ q ≠ tid ∧ tq.priority = some pq ∧ pq < p ∧
          (∀ k' t'' p'', lookup s k' = some t'' → k' ≠ tid → t''.priority = some p'' →
            p'' < p → p'' ≤ pq) ∧
          move_priority_up s tid = setPrio (setPrio s q (some p)) tid (some pq))) ∧
    (∀ (s : Store) (tid : String) (t : Task) (p : Int), WFStore s →
      allPrio s = true → lookup s tid = some t → t.priority = some p →
      ((¬ ∃ k t' p', lookup s k = some t' ∧ k ≠ tid ∧ t'.priority = some p' ∧ p < p') →
        move_priority_down s tid = s) ∧
      ((∃ k t' p', lookup s k = some t' ∧ k ≠ tid ∧ t'.priority = some p' ∧ p < p') →
        ∃ q tq pq, lookup s q = some tq ∧ q ≠ tid ∧ tq.priority = some pq ∧ p < pq ∧
          (∀ k' t'' p'', lookup s k' = some t'' → k' ≠ tid → t''.priority = some p'' →
            p < p'' → pq ≤ p'') ∧
          move_priority_down s tid = setPrio (setPrio s q (some p)) tid (some pq))) :=
  ⟨⟨by decide, by decide⟩,
   fun s tid t p hwf hall hl hp => move_priority_up_spec s tid t p hwf hall hl hp,
   fun s tid t p hwf hall hl hp => move_priority_down_spec s tid t p hwf hall hl hp⟩

/-- C7 witness: applying the general move-up characterisation to the
scenario store picks Y (priority 2) as the unique closest lower neighbour
of X (priority 5) and swaps exactly those two priorities. -/
theorem C7_witness :
    (WFStore cs7 ∧ allPrio cs7 = true ∧
      lookup cs7 "X" = some (mkTask "X" "t1" (some 5) none none false false) ∧
      (mkTask "X" "t1" (some 5) none none false false).priority = some 5) ∧
    ((¬ ∃ k t' p', lookup cs7 k = some t' ∧ k ≠ "X" ∧ t'.priority = some p' ∧
        p' < 5) → move_priority_up cs7 "X" = cs7) ∧
    ((∃ k t' p', lookup cs7 k = some t' ∧ k ≠ "X" ∧ t'.priority = some p' ∧ p' < 5) →
      ∃ q tq pq, lookup cs7 q = some tq ∧ q ≠ "X" ∧ tq.priority = some pq ∧ pq < 5 ∧
        (∀ k' t'' p'', lookup cs7 k' = some t'' → k' ≠ "X" → t''.priority = some p'' →
          p'' < 5 → p'' ≤ pq) ∧
        move_priority_up cs7 "X" = setPrio (setPrio cs7 q (some 5)) "X" (some pq)) :=
  ⟨⟨by decide, by decide, by decide, by decide⟩,
    C7_relative_priority_move.2.1 cs7 "X" (mkTask "X" "t1" (some 5) none none false false)
      5 (by decide) (by decide) (by decide) (by decide)⟩

/-- C8: the layout pass is deterministic and idempotent: refreshing the
pipeline twice with no store, view, sort-mode or zoom change in between
assigns identical position rectangles to every placed task, because each
pass clears `task_positions` and re-derives it from the store alone. -/
theorem C8_layout_idempotent (st : AppState) (fuel : Nat) (st1 st2 : AppState)
    (h1 : refresh_pipeline st fuel = some st1)
    (h2 : refresh_pipeline st1 fuel = some st2) :
    st2.task_positions = st1.task_positions :=
  refresh_pipeline_idem st fuel st1 st2 h1 h2

/-- C8 witness: two consecutive refreshes of the four-task card view
produce the identical position map. -/
theorem C8_witness :
    (refresh_pipeline st4 10 = some st4r ∧ refresh_pipeline st4r 10 = some st4r) ∧
    st4r.task_positions = st4r.task_positions :=
  ⟨⟨by decide, by decide⟩,
    C8_layout_idempotent st4 10 st4r st4r (by decide) (by decide)⟩

/-- C9 counterexample: task B's `parent_id` references the nonexistent id
"ghost"; contrary to the claim that such a task is rendered as a root, the
refresh derives an empty root list and places nothing at all. -/
theorem C9_counterexample :
    lookup cs9 "B" = some (mkTask "B" "t1" (some 1) (some "ghost") none false false) ∧
    contains cs9 "ghost" = false ∧
    root_tasks cs9 "todo" "priority" = [] ∧
    refresh_pipeline st9 5 = some { st9 with task_positions := [] } :=
  ⟨by decide, by decide, by decide, by decide⟩

/-- C9 amended: a task whose `parent_id` or `workflow_sibling_of` dangles
(references an id absent from the store) causes no error but is silently
omitted from the card-view rendering: it is never selected as a root and no
layout pass that completes assigns it a rectangle. -/
theorem C9_amended_dangling_omitted (st : AppState) (fuel : Nat) (tid : String)
    (st' : AppState) (t : Task) (hwf : WFStore st.tasks)
    (hl : lookup st.tasks tid = some t)
    (hdang : (∃ pg, t.parent_id = some pg ∧ pg ∉ st.tasks.map Prod.fst ∧
        t.workflow_sibling_of = none) ∨
      (∃ w, t.workflow_sibling_of = some w ∧ w ∉ st.tasks.map Prod.fst ∧ w ≠ ""))
    (h : refresh_pipeline st fuel = some st') :
    tid ∉ root_tasks st.tasks st.current_view st.sort_mode ∧
    posLookup st'.task_positions tid = none := by
  constructor
  · intro hrt
    rcases mem_root_tasks hwf hrt with ⟨t', hl', hpar, htru⟩
    have ht : t' = t := by rw [hl] at hl'; exact (Option.some.inj hl').symm
    subst ht
    rcases hdang with ⟨pg, hpg, _, _⟩ | ⟨w, hw, _, hwne⟩
    · rw [hpg] at hpar
      simp at hpar
    · rw [hw] at htru
      simp [truthyStr, hwne] at htru
  · exact refresh_pipeline_avoid st fuel tid st' t hwf hl hdang h

/-- C9 witness: the dangling-parent task B of the one-task store is not a
root and receives no rectangle from a completed refresh. -/
theorem C9_witness :
    (WFStore st9.tasks ∧
      lookup st9.tasks "B" = some (mkTask "B" "t1" (some 1) (some "ghost") none
        false false) ∧
      ((∃ pg, (mkTask "B" "t1" (some 1) (some "ghost") none false
          false).parent_id = some pg ∧ pg ∉ st9.tasks.map Prod.fst ∧
          (mkTask "B" "t1" (some 1) (some "ghost") none false
            false).workflow_sibling_of = none) ∨
        (∃ w, (mkTask "B" "t1" (some 1) (some "ghost") none false
            false).workflow_sibling_of = some w ∧ w ∉ st9.tasks.map Prod.fst ∧
            w ≠ "")) ∧
      refresh_pipeline st9 5 = some { st9 with task_positions := [] }) ∧
    ("B" ∉ root_tasks st9.tasks st9.current_view st9.sort_mode ∧
      posLookup ({ st9 with task_positions := [] } : AppState).task_positions "B"
        = none) :=
  ⟨⟨by decide, by decide, Or.inl ⟨"ghost", by decide, by decide, by decide⟩, by decide⟩,
    C9_amended_dangling_omitted st9 5 "B" { st9 with task_positions := [] }
      (mkTask "B" "t1" (some 1) (some "ghost") none false false) (by decide) (by decide)
      (Or.inl ⟨"ghost", by decide, by decide, by decide⟩) (by decide)⟩

/-- C10: on a well-formed store where every task carries a literal nonzero
priority (the program's own auto-assignment invariant), each of the three
reordering operations keeps the id sequence, preserves the multiset of
priority values (it only swaps two priorities), changes no task field other
than the priorities, and leaves every task other than the two involved
completely untouched. -/
theorem C10_reorder_preserves_priority_multiset (s : Store) (hwf : WFStore s)
    (hnz : allPrioNZ s = true) :
    (∀ tid, ReorderOK s (move_priority_up s tid)) ∧
    (∀ tid, ReorderOK s (move_priority_down s tid)) ∧
    (∀ a b, ReorderOK s (drag_swap s a b)) :=
  ⟨fun tid => move_up_reorder s tid hwf (allPrioNZ_allPrio hnz),
   fun tid => move_down_reorder s tid hwf (allPrioNZ_allPrio hnz),
   fun a b => drag_swap_reorder s a b hwf hnz⟩

/-- C10 witness: the preservation properties applied to the two-task
scenario store. -/
theorem C10_witness :
    (WFStore cs7 ∧ allPrioNZ cs7 = true) ∧
    ((∀ tid, ReorderOK cs7 (move_priority_up cs7 tid)) ∧
     (∀ tid, ReorderOK cs7 (move_priority_down cs7 tid)) ∧
     (∀ a b, ReorderOK cs7 (drag_swap cs7 a b))) :=
  ⟨⟨by decide, by decide⟩,
    C10_reorder_preserves_priority_multiset cs7 (by decide) (by decide)⟩

end Todo
